import Mathlib

/-!
Verification development for the ModOrganizer2 manual-installer plugin
(`installer_manual`).  The embedding below models the two core components:

* the lazy tree view (`ArchiveTreeWidgetItem` / `ArchiveTreeWidget`,
  src/archivetree.cpp), and
* the mirror-tree controller (`InstallDialog`, src/installdialog.cpp),

together with the slice of the host-owned `IFileTree` contract that the
code uses (insertion policies, `detach`, `clear`, `exists`, `find`,
`addDirectory`).

Representation.  A UI tree item is a `Node`: its `NodeData` carries the
item's name, whether its entry is a directory, the Qt item flags that
matter (`checkable` stands for `Qt::ItemIsUserCheckable` together with
`Qt::ItemIsAutoTristate`, which the code always sets together for
directory items; the synthetic roots have neither), the *stored* Qt check
state, the `m_Populated` flag, the expansion state and — crucially —
whether the item's entry is currently attached to (present in) its
parent's authoritative children collection.  `children` are the
materialized child items.  `hidden` are the entries of the node's
authoritative children collection that have no widget item: for an
unpopulated directory item this is the whole lazily-unpopulated subtree,
and after a semantic move it temporarily holds the inserted entry until
the drop handler refreshes the target.  The authoritative children
collection of a node is therefore: the entries of its attached children,
followed by `hidden`.

`FEntry` is a plain file-tree entry (the `IFileTree` side of such
entries, without widget state).  Name comparison in `IFileTree` is
case-insensitive; the embedding abstracts the comparator as equality of
the opaque `String` names.
-/

inductive CheckState where
  | unchecked
  | mixed
  | checked
deriving DecidableEq

structure NodeData where
  name : String
  isDir : Bool
  checkable : Bool
  checked : CheckState
  populated : Bool
  expanded : Bool
  attached : Bool
deriving DecidableEq

inductive FEntry where
  | mk (name : String) (isDir : Bool) (children : List FEntry)

def FEntry.name : FEntry → String
  | .mk n _ _ => n

def FEntry.isDir : FEntry → Bool
  | .mk _ d _ => d

def FEntry.children : FEntry → List FEntry
  | .mk _ _ c => c

inductive Node where
  | mk (info : NodeData) (children : List Node) (hidden : List FEntry)

def Node.info : Node → NodeData
  | .mk d _ _ => d

def Node.children : Node → List Node
  | .mk _ c _ => c

def Node.hidden : Node → List FEntry
  | .mk _ _ h => h

def Node.name (n : Node) : String := n.info.name

mutual
def FEntry.deq : (a b : FEntry) → Decidable (a = b)
  | .mk n1 d1 c1, .mk n2 d2 c2 =>
    if h1 : n1 = n2 then
      if h2 : d1 = d2 then
        match FEntry.deqList c1 c2 with
        | isTrue h3 => isTrue (by subst h1 h2 h3; rfl)
        | isFalse h3 => isFalse (by intro h; injection h; contradiction)
      else isFalse (by intro h; injection h; contradiction)
    else isFalse (by intro h; injection h; contradiction)
def FEntry.deqList : (a b : List FEntry) → Decidable (a = b)
  | [], [] => isTrue rfl
  | [], _ :: _ => isFalse (by intro h; injection h)
  | _ :: _, [] => isFalse (by intro h; injection h)
  | a :: as, b :: bs =>
    match FEntry.deq a b, FEntry.deqList as bs with
    | isTrue h1, isTrue h2 => isTrue (by subst h1 h2; rfl)
    | isFalse h1, _ => isFalse (by intro h; injection h; contradiction)
    | _, isFalse h2 => isFalse (by intro h; injection h; contradiction)
end

instance : DecidableEq FEntry := FEntry.deq

mutual
def Node.deq : (a b : Node) → Decidable (a = b)
  | .mk d1 c1 h1, .mk d2 c2 h2 =>
    if hd : d1 = d2 then
      match Node.deqList c1 c2 with
      | isTrue hc =>
        if hh : h1 = h2 then isTrue (by subst hd hc hh; rfl)
        else isFalse (by intro h; injection h; contradiction)
      | isFalse hc => isFalse (by intro h; injection h; contradiction)
    else isFalse (by intro h; injection h; contradiction)
def Node.deqList : (a b : List Node) → Decidable (a = b)
  | [], [] => isTrue rfl
  | [], _ :: _ => isFalse (by intro h; injection h)
  | _ :: _, [] => isFalse (by intro h; injection h)
  | a :: as, b :: bs =>
    match Node.deq a b, Node.deqList as bs with
    | isTrue h1, isTrue h2 => isTrue (by subst h1 h2; rfl)
    | isFalse h1, _ => isFalse (by intro h; injection h; contradiction)
    | _, isFalse h2 => isFalse (by intro h; injection h; contradiction)
end

instance : DecidableEq Node := Node.deq

/-- Qt `QTreeWidgetItem::childrenCheckState`: the aggregate state of a
list of child states — all checked, all unchecked, otherwise partially
checked.  Only consulted for a non-empty list of children. -/
def childrenCheckState (sts : List CheckState) : CheckState :=
  if sts.all (· == .checked) then .checked
  else if sts.all (· == .unchecked) then .unchecked
  else .mixed

mutual
/-- Qt `QTreeWidgetItem::data(column, Qt::CheckStateRole)`: for an
auto-tristate item that has materialized children, the reported check
state is computed from the children; otherwise it is the stored state. -/
def checkStateOf : Node → CheckState
  | .mk d cs _ =>
    if d.isDir && d.checkable && !cs.isEmpty then childrenCheckState (checkStateList cs)
    else d.checked
def checkStateList : List Node → List CheckState
  | [] => []
  | c :: cs => checkStateOf c :: checkStateList cs
end

/-- Replace the `attached` flag of a node (detaching or re-inserting its
entry in the parent's authoritative collection). -/
def Node.setAttached (n : Node) (b : Bool) : Node :=
  .mk { n.info with attached := b } n.children n.hidden

mutual
/-- Project a widget item to its `FileTreeEntry`: name, type, and — for a
directory — its current authoritative children collection (the entries of
its attached child items, followed by the collection entries that have no
widget item). -/
def entryOf : Node → FEntry
  | .mk d cs h => .mk d.name d.isDir (attachedEntries cs ++ h)
def attachedEntries : List Node → List FEntry
  | [] => []
  | c :: cs =>
    if c.info.attached then entryOf c :: attachedEntries cs else attachedEntries cs
end

/-- Names of the entries in a node's authoritative children collection. -/
def collNames (n : Node) : List String :=
  (n.children.filter (fun c => c.info.attached)).map Node.name ++ n.hidden.map FEntry.name

/-- `IFileTree::exists(name)` on a node's authoritative collection. -/
def existsName (n : Node) (s : String) : Bool :=
  (collNames n).contains s

/-- `IFileTree::find(name)` on a node's authoritative collection. -/
def findColl (n : Node) (s : String) : Option FEntry :=
  match (n.children.filter (fun c => c.info.attached)).find? (fun c => c.info.name == s) with
  | some c => some (entryOf c)
  | none => n.hidden.find? (fun e => e.name == s)

/-- `IFileTree::empty()` for a node's authoritative collection. -/
def collEmpty (n : Node) : Bool :=
  n.children.all (fun c => !c.info.attached) && n.hidden.isEmpty

/-- `IFileTree::clear()`: every entry of the collection is detached. -/
def clearColl (n : Node) : Node :=
  .mk n.info (n.children.map (fun c => c.setAttached false)) []

/-- Tree paths address widget items: the list of child indices from the view
root down to the item. -/
abbrev TPath := List Nat

mutual
def nodeAt : Node → TPath → Option Node
  | n, [] => some n
  | .mk _ cs _, i :: p => nodeAtList cs i p
def nodeAtList : List Node → Nat → TPath → Option Node
  | [], _, _ => none
  | c :: _, 0, p => nodeAt c p
  | _ :: cs, i + 1, p => nodeAtList cs i p
end

def modList {α : Type} : List α → Nat → (α → α) → List α
  | [], _, _ => []
  | c :: cs, 0, f => f c :: cs
  | c :: cs, i + 1, f => c :: modList cs i f

mutual
def modifyAt : Node → TPath → (Node → Node) → Node
  | n, [], f => f n
  | .mk d cs h, i :: p, f => .mk d (modifyAtList cs i p f) h
def modifyAtList : List Node → Nat → TPath → (Node → Node) → List Node
  | [], _, _, _ => []
  | c :: cs, 0, p, f => modifyAt c p f :: cs
  | c :: cs, i + 1, p, f => c :: modifyAtList cs i p f
end

/-- Construction of a child widget item during `populate`:
`ArchiveTreeWidgetItem(entry)` (a checkable, unpopulated, collapsed item;
its entry is an element of the parent's collection, hence attached),
followed by `setCheckState(0, inherited)` which at that point runs
outside any tree widget and therefore just stores the value. -/
def materialize (inh : CheckState) (e : FEntry) : Node :=
  .mk { name := e.name, isDir := e.isDir, checkable := true,
        checked := inh, populated := false, expanded := false, attached := true }
    [] e.children

/-- `ArchiveTreeWidgetItem::populate(force)` (src/archivetree.cpp).  A
populated item is only repopulated when forced; populating a file is a
defensive no-op.  One child item is created per entry of the node's
authoritative collection, inheriting the parent's current check state
when the parent is user-checkable and `Qt::Checked` otherwise.  If the
item reads as unchecked once the children exist, its collection is
cleared.  At every call site the item has no materialized children when
this runs (`populate` is forced only after `refreshItem` removed them),
so the per-iteration `checkState(0)` reads all evaluate to the state
read before the first child is added, which is how the inherited state
is computed here. -/
def populate (n : Node) (force : Bool) : Node :=
  if n.info.populated && !force then n
  else if !n.info.isDir then n
  else
    let inh := if n.info.checkable then checkStateOf n else .checked
    let n1 : Node := .mk n.info (n.children ++ n.hidden.map (materialize inh)) []
    let n2 := if checkStateOf n1 == .unchecked then clearColl n1 else n1
    .mk { n2.info with populated := true } n2.children n2.hidden

/-- `QTreeWidgetItem::setExpanded(true)`: on the transition from
collapsed to expanded the tree widget's `itemExpanded` signal triggers
`ArchiveTreeWidget::populateItem`, i.e. a non-forced `populate`. -/
def expandTrue (n : Node) : Node :=
  if n.info.expanded then n
  else populate (.mk { n.info with expanded := true } n.children n.hidden) false

mutual
/-- `ArchiveTreeWidgetItem::setData` for `Qt::CheckStateRole`
(src/archivetree.cpp) running on the subtree rooted at `self`: the
outermost call claims the single-slot `m_Emitter` marker when it is
free; the base-class `QTreeWidgetItem::setData` stores the value and,
for an auto-tristate item and a non-partial value, propagates it to
every child item through their (virtual, hence overridden) `setData`;
on return, the call that claimed the marker clears it and emits
`treeCheckStateChanged` for itself.  Returns the new subtree, the
marker, and the list of emissions in order. -/
def setDataRun : Node → TPath → CheckState → Option TPath → Node × Option TPath × List TPath
  | .mk d cs h, self, v, em =>
    let em1 := if em.isNone then some self else em
    let r :=
      if d.isDir && d.checkable && !(v == .mixed) then setDataChildren cs self 0 v em1
      else (cs, em1, [])
    let n1 : Node := .mk { d with checked := v } r.1 h
    if r.2.1 == some self then (n1, none, r.2.2 ++ [self]) else (n1, r.2.1, r.2.2)
def setDataChildren :
    List Node → TPath → Nat → CheckState → Option TPath → List Node × Option TPath × List TPath
  | [], _, _, _, em => ([], em, [])
  | c :: cs, par, i, v, em =>
    let rc := setDataRun c (par ++ [i]) v em
    let rs := setDataChildren cs par (i + 1) v rc.2.1
    (rc.1 :: rs.1, rs.2.1, rc.2.2 ++ rs.2.2)
end

/-- Names of the attached items in a list of sibling items. -/
def attachedNames (l : List Node) : List String :=
  (l.filter (fun c => c.info.attached)).map Node.name

mutual
/-- `InstallDialog::recursiveInsert` (src/installdialog.cpp): when the
item is populated, insert every child item's entry into the item's
authoritative collection (default `FAIL_IF_EXISTS` policy: the insert
is a no-op when the collection already holds an entry with that name),
recursing into directory children.  The C++ inserts the child's entry
and then recurses into the same child; the two steps touch disjoint
parts of the child (its attachment flag vs. its subtree), so the
recursion is performed first here to keep it structural. -/
def recursiveInsert : Node → Node
  | .mk d cs h =>
    if d.populated then .mk d (recInsGo (h.map FEntry.name) [] cs) h
    else .mk d cs h
def recInsGo : List String → List Node → List Node → List Node
  | _, acc, [] => acc
  | hidNames, acc, c :: rest =>
    let deep := if c.info.isDir then recursiveInsert c else c
    let c1 :=
      if !c.info.attached
          && ((attachedNames acc ++ attachedNames rest ++ hidNames).contains c.info.name) then
        deep
      else deep.setAttached true
    recInsGo hidNames (acc ++ [c1]) rest
end

mutual
/-- `InstallDialog::recursiveDetach` (src/installdialog.cpp): when the
item is populated, first recurse into the populated directory children,
then clear the item's entire authoritative collection in one call. -/
def recursiveDetach : Node → Node
  | .mk d cs h =>
    if d.populated then clearColl (.mk d (recDetGo cs) h)
    else .mk d cs h
def recDetGo : List Node → List Node
  | [] => []
  | c :: cs => (if c.info.isDir then recursiveDetach c else c) :: recDetGo cs
end

/-- Insertion of the child item at index `i` into `par`'s authoritative
collection with the default `FAIL_IF_EXISTS` policy
(`parentEntry->astree()->insert(item->entry())` in
`InstallDialog::attachParents`): a no-op when the collection already
holds an entry with that name (in particular when the child is already
attached). -/
def attachChildIn (par : Node) (i : Nat) : Node :=
  match par.children[i]? with
  | none => par
  | some c =>
    if !c.info.attached && !((collNames par).contains c.info.name) then
      .mk par.info (modList par.children i (fun x => x.setAttached true)) par.hidden
    else par

/-- `InstallDialog::attachParents` (src/installdialog.cpp), processing
the reversed path: walk from the item up to the view root, inserting the
current item's entry into its parent's authoritative collection at each
step.  In the modelled dialog state the view root always wraps the data
root's entry, so the `parentEntry != nullptr` test always passes. -/
def attachParentsRev (root : Node) : TPath → Node
  | [] => root
  | i :: rest => attachParentsRev (modifyAt root rest.reverse (fun par => attachChildIn par i)) rest

def attachParents (root : Node) (p : TPath) : Node :=
  attachParentsRev root p.reverse

/-- The ancestor-pruning loop of `InstallDialog::detachParents`,
processing the reversed path of the current entry-parent: while the
parent directory's collection is empty, detach it from its own parent
and continue upward.  The walk follows `FileTreeEntry::parent()`
pointers: it continues above a directory only when that directory was
itself attached, and detaching the view root's entry (which has no
parent) is a no-op that ends the walk. -/
def pruneUpRev (root : Node) : TPath → Node
  | [] => root
  | i :: rest =>
    match nodeAt root (i :: rest).reverse with
    | none => root
    | some n =>
      if collEmpty n then
        let root1 := modifyAt root (i :: rest).reverse (fun x => x.setAttached false)
        if n.info.attached then pruneUpRev root1 rest else root1
      else root

/-- `InstallDialog::detachParents` (src/installdialog.cpp): detach the
item's entry from its parent's collection (`entry->detach()`, a no-op
when the entry has no parent, i.e. is already detached), then prune the
now-empty ancestors.  The pruning loop starts at `entry->parent()`,
which is the item's widget parent's entry when the entry was attached
and null otherwise. -/
def detachParents (root : Node) (p : TPath) : Node :=
  match p with
  | [] => root
  | _ :: _ =>
    match nodeAt root p with
    | none => root
    | some n =>
      let root1 := modifyAt root p (fun x => x.setAttached false)
      if n.info.attached then pruneUpRev root1 p.dropLast.reverse else root1

/-- `InstallDialog::onTreeCheckStateChanged` (src/installdialog.cpp):
for a populated directory item, re-insert or detach the subtree's
entries according to the item's new check state; then detach the item
and prune empty ancestors (unchecked) or re-attach the parent chain
(otherwise).  `updateProblems` only refreshes the validity indicator
and is not part of the tree state. -/
def onTreeCheckStateChanged (root : Node) (p : TPath) : Node :=
  match nodeAt root p with
  | none => root
  | some n =>
    let eff := checkStateOf n
    let root1 :=
      if n.info.isDir && (eff == .checked) && n.info.populated then
        modifyAt root p recursiveInsert
      else if n.info.isDir && (eff == .unchecked) && n.info.populated then
        modifyAt root p recursiveDetach
      else root
    if eff == .unchecked then detachParents root1 p else attachParents root1 p

/-- A `setCheckState(0, v)` call on the item at `p` inside the tree
widget: the `setData` cascade runs (storing `v` throughout the item's
materialized subtree), and every `treeCheckStateChanged` emission then
runs the connected `InstallDialog::onTreeCheckStateChanged` slot
synchronously.  Returns the new tree and the emissions. -/
def treeSetCheckState (root : Node) (p : TPath) (v : CheckState) : Node × List TPath :=
  match nodeAt root p with
  | none => (root, [])
  | some n =>
    let r := setDataRun n p v none
    let root1 := modifyAt root p (fun _ => r.1)
    (r.2.2.foldl (fun st q => onTreeCheckStateChanged st q) root1, r.2.2)

/-- A user toggle of the checkbox of the item at `p` to `v`. -/
def userToggle (root : Node) (p : TPath) (v : CheckState) : Node :=
  (treeSetCheckState root p v).1

/-- Removal of the child item at index `i` of `par`
(`QTreeWidgetItem::removeChild`): the widget item leaves the view; its
entry, when attached, remains in the parent's authoritative collection —
now without a widget item, so it joins `hidden`. -/
def removeChildIn (par : Node) (i : Nat) : Node :=
  match par.children[i]? with
  | none => par
  | some c =>
    .mk par.info (par.children.eraseIdx i)
      (par.hidden ++ if c.info.attached then [entryOf c] else [])

/-- `removeChild` addressed by the removed item's path. -/
def removeChildUI (root : Node) (p : TPath) : Node :=
  match p.reverse with
  | [] => root
  | i :: rq => modifyAt root rq.reverse (fun par => removeChildIn par i)

/-- `InstallDialog::detachParents` applied to an entry that no longer
has a widget item (the just-removed drop source): remove the entry from
its parent's collection, then prune the now-empty ancestors starting at
that parent. -/
def detachEntryAt (root : Node) (parentPath : TPath) (nm : String) : Node :=
  match nodeAt root parentPath with
  | none => root
  | some _ =>
    let root1 := modifyAt root parentPath
      (fun par => .mk par.info par.children (par.hidden.filter (fun e => !(e.name == nm))))
    pruneUpRev root1 parentPath.reverse

mutual
/-- Modelled from the spec: `IFileTree::insert` of one entry into a
plain (no widget items) directory entry with policy `MERGE` — the
collection has unique names; a same-named directory has the source
directory's contents merged into it, any other same-named entry is
overwritten by the source, and otherwise the source is appended.
(`IFileTree` itself is host-owned and not part of this repository.) -/
def insertFE : FEntry → FEntry → FEntry
  | .mk dn dd dk, .mk en ed ek =>
    match dk.findIdx? (fun x => x.name == en) with
    | some j =>
      match dk[j]? with
      | some old =>
        if old.isDir && ed then .mk dn dd (dk.set j (mergeListFE old ek))
        else .mk dn dd (dk.set j (.mk en ed ek))
      | none => .mk dn dd dk
    | none => .mk dn dd (dk ++ [.mk en ed ek])
def mergeListFE : FEntry → List FEntry → FEntry
  | d, [] => d
  | d, e :: es => mergeListFE (insertFE d e) es
end

/-- Index of the first attached child item of `t` named `nm`. -/
def findAttachedIdx (t : Node) (nm : String) : Option Nat :=
  t.children.findIdx? (fun c => c.info.attached && c.info.name == nm)

mutual
/-- Modelled from the spec: `IFileTree::insert(entry, MERGE)` on the
collection of a node (`t`) that may have widget items for some of its
entries.  A same-named directory entry keeps its place and has the
source directory's contents merged into its collection; any other
same-named entry is overwritten (a stale widget item for an overwritten
file entry loses its attachment, and the source entry joins `hidden`
since it has no widget item); otherwise the source entry is appended to
the collection. -/
def insertMerge : Node → FEntry → Node
  | t, .mk en ed ek =>
    match findAttachedIdx t en with
    | some i =>
      match t.children[i]? with
      | some c =>
        if c.info.isDir && ed then
          .mk t.info (modList t.children i (fun x => mergeIntoNode x ek)) t.hidden
        else
          .mk t.info (modList t.children i (fun x => x.setAttached false))
            (t.hidden ++ [.mk en ed ek])
      | none => t
    | none =>
      match t.hidden.findIdx? (fun x => x.name == en) with
      | some j =>
        match t.hidden[j]? with
        | some old =>
          if old.isDir && ed then .mk t.info t.children (t.hidden.set j (mergeListFE old ek))
          else .mk t.info t.children (t.hidden.set j (.mk en ed ek))
        | none => t
      | none => .mk t.info t.children (t.hidden ++ [.mk en ed ek])
def mergeIntoNode : Node → List FEntry → Node
  | c, [] => c
  | c, e :: es => mergeIntoNode (insertMerge c e) es
end

/-- The pre-insert scan of `InstallDialog::onItemMoved`: look through the
target's widget children (which includes unchecked, detached items) for
one whose entry has the source's name; remove an existing file child
from the widget tree, force-check an existing directory child (a full
`setCheckState` round, emitting `treeCheckStateChanged` and running the
slot synchronously). -/
def movePrecheck (root : Node) (tgt : TPath) (nm : String) : Node :=
  match nodeAt root tgt with
  | none => root
  | some t =>
    match t.children.findIdx? (fun c => c.info.name == nm) with
    | none => root
    | some i =>
      match t.children[i]? with
      | some c =>
        if !c.info.isDir then removeChildUI root (tgt ++ [i])
        else userToggle root (tgt ++ [i]) .checked
      | none => root

/-- `InstallDialog::onItemMoved` (src/installdialog.cpp).  The slot runs
after the drop handler removed the source item from its widget parent;
`src` is the source item's entry, `srcAtt` whether it was attached and
`srcParent` the path of its former widget parent (the source entry's
`parent()` is that item's entry exactly when the source was attached).
The slot runs `detachParents(source)`, scans the target's widget
children for a same-named entry, inserts the source entry into the
target's collection with policy `MERGE`, and runs
`attachParents(target)`. -/
def onItemMoved (root : Node) (src : FEntry) (srcAtt : Bool) (srcParent : TPath)
    (tgt : TPath) : Node :=
  match nodeAt root tgt with
  | none => root
  | some _ =>
    let root1 := if srcAtt then detachEntryAt root srcParent src.name else root
    let root2 := movePrecheck root1 tgt src.name
    let root3 := modifyAt root2 tgt (fun t => insertMerge t src)
    attachParents root3 tgt

/-- Pointer-identity of a widget item, expressed on paths: the path of
the item previously at `q` after the item at `s` has been removed from
its parent. -/
def adjustTPath : TPath → TPath → TPath
  | [i], j :: q => if i < j then (j - 1) :: q else j :: q
  | i :: s, j :: q => if i == j then j :: adjustTPath s q else j :: q
  | _, q => q

/-- `ArchiveTreeWidget::testMovePossible` (src/archivetree.cpp) on
paths: the target must not be a file, and the source must be neither the
target itself nor a direct child of the target. -/
def testMovePossible (root : Node) (s tgt : TPath) : Bool :=
  match nodeAt root s, nodeAt root tgt with
  | some _, some t =>
    !(!t.info.isDir) && !(s == tgt) && !(s.dropLast == tgt)
  | _, _ => false

/-- One iteration of the second `dropEvent` loop for the selected item
at `s` (src/archivetree.cpp): skip top-level items and impossible moves;
force-expand the target's same-named directory children that are about
to be merged; remove the source from its widget parent; emit `itemMoved`
(running `InstallDialog::onItemMoved` synchronously).  Returns the new
tree and whether the source item was removed (so that the caller can
re-address the surviving items). -/
def moveStep (tgt : TPath) (root : Node) (s : TPath) : Node × Bool :=
  match nodeAt root s with
  | none => (root, false)
  | some srcN =>
    if s.isEmpty || !testMovePossible root s tgt then (root, false)
    else
      let rootA := modifyAt root tgt (fun t =>
        .mk t.info
          (t.children.map (fun c =>
            if c.info.name == srcN.info.name && c.info.isDir then expandTrue c else c))
          t.hidden)
      let rootB := removeChildUI rootA s
      (onItemMoved rootB (entryOf srcN) srcN.info.attached s.dropLast (adjustTPath s tgt), true)

/-- `ArchiveTreeWidget::refreshItem` (src/archivetree.cpp): for a
populated directory item, remember which children were expanded (by
name, later assignments overwriting earlier ones as in the `std::map`),
remove all child items (their attached entries stay in the collection),
force-repopulate from the collection, and re-expand the rebuilt children
whose names were recorded as expanded. -/
def refreshNode (t : Node) : Node :=
  if !t.info.populated || !t.info.isDir then t
  else
    let expMap := t.children.map (fun c => (c.info.name, c.info.expanded))
    let wasExpanded := fun nm =>
      match expMap.reverse.find? (fun pr => pr.1 == nm) with
      | some pr => pr.2
      | none => false
    let t1 : Node := .mk t.info [] (attachedEntries t.children ++ t.hidden)
    let t2 := populate t1 true
    .mk t2.info
      (t2.children.map (fun c => if wasExpanded c.info.name then expandTrue c else c))
      t2.hidden

/-- The first `dropEvent` loop's per-item validation
(src/archivetree.cpp): the drop fails when the target sits below the
source (`isAncestor(source, target)`), or when the target's collection
already holds a differently-typed entry with the source's name.  Either
failure pops a warning box and aborts the whole drop. -/
def dropFails (root : Node) (s tgt : TPath) : Bool :=
  (s.isPrefixOf tgt && !(s == tgt))
  || (match nodeAt root s, nodeAt root tgt with
      | some sn, some tn =>
        match findColl tn sn.info.name with
        | some e => !(e.isDir == sn.info.isDir)
        | none => false
      | _, _ => false)

/-- Re-address a path given the removals performed so far (each recorded
in the coordinates current at its removal). -/
def adjustBy (removed : List TPath) (q : TPath) : TPath :=
  removed.foldl (fun acc r => adjustTPath r acc) q

/-- The second `dropEvent` loop over the selected items, with the target
path and the remaining selection re-addressed after every removal (the
C++ iterates over stable item pointers). -/
def dropLoop2Go (tgt : TPath) : Node → List TPath → List TPath → Node × List TPath
  | root, removed, [] => (root, removed)
  | root, removed, s :: rest =>
    let s1 := adjustBy removed s
    let r := moveStep (adjustBy removed tgt) root s1
    if r.2 then dropLoop2Go tgt r.1 (removed ++ [s1]) rest
    else dropLoop2Go tgt r.1 removed rest

def dropLoop2 (root : Node) (tgt : TPath) (sels : List TPath) : Node × List TPath :=
  dropLoop2Go tgt root [] sels

/-- `ArchiveTreeWidget::dropEvent` (src/archivetree.cpp): resolve a file
target to its parent directory, populate the target, validate every
selected item before moving anything (any failure warns and returns),
then move the items one by one and refresh the target.  Returns the new
tree and whether a warning box was shown. -/
def dropEvent (root : Node) (sels : List TPath) (pos : TPath) : Node × Bool :=
  match nodeAt root pos with
  | none => (root, false)
  | some tN =>
    if !tN.info.isDir && pos.isEmpty then (root, false)
    else
      let tgt := if !tN.info.isDir then pos.dropLast else pos
      let root1 := modifyAt root tgt (fun t => populate t false)
      if sels.any (fun s => dropFails root1 s tgt) then (root1, true)
      else
        let r := dropLoop2 root1 tgt sels
        (modifyAt r.1 (adjustBy r.2 tgt) refreshNode, false)

/-- A freshly created directory item in `InstallDialog::createDirectoryUnder`:
`fileTree->addDirectory(result)` creates an (attached) empty directory
entry in the parent's collection, and `new ArchiveTreeWidgetItem(item, ...)`
wraps it in a checkable child item whose constructor stores
`Qt::Checked` before the item enters the tree. -/
def newDirNode (s : String) : Node :=
  .mk { name := s, isDir := true, checkable := true, checked := .checked,
        populated := false, expanded := false, attached := true } [] []

/-- Modelled from the spec: `QString::trimmed` — the entered name with
leading and trailing whitespace removed. -/
def trimmed (s : String) : String :=
  let ws := fun c : Char => c == ' ' || c == '\t' || c == '\n' || c == '\r'
  .mk (((s.data.dropWhile ws).reverse.dropWhile ws).reverse)

/-- `InstallDialog::createDirectoryUnder` (src/installdialog.cpp).  `ok`
and `input` are the results of the `QInputDialog::getText` prompt; the
returned `Option String` is the `reportError` message, `none` when no
error was reported.  A file parent is rejected with an error; a
cancelled or (after trimming) empty input falls through the
`if (ok && !result.isEmpty())` guard, mutating nothing and reporting
nothing; an already-existing name is rejected with an error.  Otherwise
the parent is expanded (populating it), the directory entry and its
checked widget item are created (the `setCheckState` emits
`treeCheckStateChanged`, running the slot synchronously), and
`attachParents(item)` repairs the parent chain. -/
def createDirectoryUnder (root : Node) (p : TPath) (ok : Bool) (input : String) :
    Node × Option String :=
  match nodeAt root p with
  | none => (root, none)
  | some n =>
    if !n.info.isDir then (root, some "Cannot create directory under a file.")
    else
      let result := trimmed input
      if ok && !(result == "") then
        if existsName n result then
          (root, some "A directory or file with that name already exists.")
        else
          let root1 := modifyAt root p expandTrue
          let childIdx := match nodeAt root1 p with
            | some m => m.children.length
            | none => 0
          let root2 := modifyAt root1 p
            (fun m => .mk m.info (m.children ++ [newDirNode result]) m.hidden)
          let root3 := userToggle root2 (p ++ [childIdx]) .checked
          (attachParents root3 p, none)
      else (root, none)

/-- Modelled from the spec: the validity checker collaborator
(`ModDataChecker`, host-owned) reports whether a candidate data-root
tree looks valid; the collaborator is optional. -/
inductive CheckReturn where
  | valid
  | invalid
deriving DecidableEq

/-- `InstallDialog::testForProblem` (src/installdialog.cpp): with no
checker the function returns `true`; otherwise it returns whether the
checker reports `VALID` for the data root's tree. -/
def testForProblem (checker : Option (FEntry → CheckReturn)) (dataRoot : FEntry) : Bool :=
  match checker with
  | none => true
  | some c => c dataRoot == .valid

/-- The user's answer to the `QMessageBox::question` confirmation. -/
inductive ConfirmAnswer where
  | ignoreBox
  | cancelBox
deriving DecidableEq

/-- `InstallDialog::on_okButton_clicked` (src/installdialog.cpp):
when `testForProblem` fails, a confirmation box is shown and `Cancel`
returns without accepting; otherwise the dialog is accepted directly.
Returns (confirmation box shown, dialog accepted). -/
def okButtonClicked (checker : Option (FEntry → CheckReturn)) (dataRoot : FEntry)
    (answer : ConfirmAnswer) : Bool × Bool :=
  if !testForProblem checker dataRoot then
    if answer == .cancelBox then (true, false) else (true, true)
  else (false, true)

/-! Sample states used by concrete counterexamples and witnesses. -/

/-- A directory widget item. -/
def mkDirN (nm : String) (st : CheckState) (pop exp att : Bool)
    (cs : List Node) (h : List FEntry) : Node :=
  .mk { name := nm, isDir := true, checkable := true, checked := st,
        populated := pop, expanded := exp, attached := att } cs h

/-- A file widget item. -/
def mkFileN (nm : String) (st : CheckState) (att : Bool) : Node :=
  .mk { name := nm, isDir := false, checkable := true, checked := st,
        populated := false, expanded := false, attached := att } [] []

/-- The view root (`m_ViewRoot` wrapping the data root's tree): not
user-checkable, populated, expanded. -/
def mkRootN (cs : List Node) : Node :=
  .mk { name := "<data>", isDir := true, checkable := false, checked := .checked,
        populated := true, expanded := true, attached := true } cs []

/-- The claim C2 is refuted on the state where no checker is available:
`testForProblem` then returns `true` and the OK handler accepts without
any confirmation box. -/
theorem C2_counterexample :
    okButtonClicked none (.mk "data" true []) .cancelBox = (false, true)
    ∧ okButtonClicked none (.mk "data" true []) .ignoreBox = (false, true) := by
  constructor <;> rfl

/-- C2 (amended): the OK button shows the Ignore/Cancel confirmation box
exactly when a validity checker is present and reports the tree as not
valid; when no checker collaborator is available the dialog is accepted
directly, with no confirmation step. -/
theorem C2_ok_button_amended :
    ∀ (checker : Option (FEntry → CheckReturn)) (t : FEntry) (a : ConfirmAnswer),
      ((okButtonClicked checker t a).1 = true ↔ ∃ c, checker = some c ∧ c t = .invalid)
      ∧ okButtonClicked none t a = (false, true) := by
  intro checker t a
  refine ⟨?_, rfl⟩
  cases checker with
  | none => simp [okButtonClicked, testForProblem]
  | some c =>
    cases hc : c t with
    | valid =>
      simp [okButtonClicked, testForProblem, hc]
    | invalid =>
      constructor
      · intro _
        exact ⟨c, rfl, hc⟩
      · intro _
        cases a <;> simp [okButtonClicked, testForProblem, hc]

/-- A parent directory used by the C8 counterexample. -/
def c8Parent : Node := mkRootN [mkDirN "D" .checked false false true [] []]

/-- The claim C8 is refuted on a whitespace-only input: the
`if (ok && !result.isEmpty())` guard silently skips the whole operation,
so nothing is mutated but no error is reported either (the claim demands
a reported, user-visible error message for an empty trimmed name). -/
theorem C8_counterexample :
    createDirectoryUnder c8Parent [0] true "   " = (c8Parent, none) := by decide

/-- C8 (amended): creating a directory under a file is rejected with a
reported error and no mutation; a cancelled prompt or a name that is
empty after whitespace trimming aborts the operation with no mutation
but also with no reported message; a name that already exists in the
parent's collection is rejected with a reported error and no mutation. -/
theorem C8_createDirectory_amended (root : Node) (p : TPath) (n : Node) (ok : Bool)
    (input : String) (hn : nodeAt root p = some n) :
    (n.info.isDir = false →
      createDirectoryUnder root p ok input = (root, some "Cannot create directory under a file."))
    ∧ (n.info.isDir = true → (ok = false ∨ trimmed input = "") →
      createDirectoryUnder root p ok input = (root, none))
    ∧ (n.info.isDir = true → ok = true → trimmed input ≠ "" →
      existsName n (trimmed input) = true →
      createDirectoryUnder root p ok input =
        (root, some "A directory or file with that name already exists.")) := by
  refine ⟨?_, ?_, ?_⟩
  · intro hd
    simp [createDirectoryUnder, hn, hd]
  · intro hd hok
    rcases hok with hok | hok <;>
      simp [createDirectoryUnder, hn, hd, hok]
  · intro hd hok hne hex
    simp [createDirectoryUnder, hn, hd, hok, hne, hex]

/-- Witness for C8 (amended): the three rejection branches at concrete
inputs. -/
theorem C8_createDirectory_amended_witness :
    (createDirectoryUnder (mkRootN [mkFileN "f" .checked true]) [0] true "x"
      = (mkRootN [mkFileN "f" .checked true], some "Cannot create directory under a file."))
    ∧ (createDirectoryUnder c8Parent [0] true "  " = (c8Parent, none))
    ∧ (createDirectoryUnder (mkRootN [mkDirN "D" .checked true true true [mkFileN "x" .checked true] []])
        [0] true " x "
      = (mkRootN [mkDirN "D" .checked true true true [mkFileN "x" .checked true] []],
         some "A directory or file with that name already exists.")) :=
  ⟨(C8_createDirectory_amended (mkRootN [mkFileN "f" .checked true]) [0]
      (mkFileN "f" .checked true) true "x" (by decide)).1 rfl,
   (C8_createDirectory_amended c8Parent [0] (mkDirN "D" .checked false false true [] [])
      true "  " (by decide)).2.1 rfl (Or.inr (by decide)),
   (C8_createDirectory_amended (mkRootN [mkDirN "D" .checked true true true [mkFileN "x" .checked true] []])
      [0] (mkDirN "D" .checked true true true [mkFileN "x" .checked true] []) true " x "
      (by decide)).2.2 rfl rfl (by decide) (by decide)⟩

lemma checkStateList_eq_map (cs : List Node) : checkStateList cs = cs.map checkStateOf := by
  induction cs with
  | nil => rfl
  | cons c cs ih => simp [checkStateList, ih]

lemma all_beq_of_const {l : List CheckState} {w : CheckState} (h : ∀ x ∈ l, x = w) :
    (l.all fun x => x == w) = true := by
  rw [List.all_eq_true]
  intro x hx
  simp [h x hx]

lemma childrenCheckState_const (v : CheckState) (l : List CheckState)
    (hne : l ≠ []) (hall : ∀ x ∈ l, x = v) : childrenCheckState l = v := by
  obtain ⟨a, as, rfl⟩ := List.exists_cons_of_ne_nil hne
  have ha := hall a (List.mem_cons_self a as)
  subst ha
  unfold childrenCheckState
  cases a with
  | checked => simp [all_beq_of_const hall]
  | unchecked =>
    have h1 : ((CheckState.unchecked :: as).all fun x => x == CheckState.checked) = false := by
      simp [List.all_cons]
    simp [h1, all_beq_of_const hall]
  | mixed =>
    have h1 : ((CheckState.mixed :: as).all fun x => x == CheckState.checked) = false := by
      simp [List.all_cons]
    have h2 : ((CheckState.mixed :: as).all fun x => x == CheckState.unchecked) = false := by
      simp [List.all_cons]
    simp [h1, h2]

lemma info_materialize (inh : CheckState) (e : FEntry) :
    (materialize inh e).info =
      { name := e.name, isDir := e.isDir, checkable := true, checked := inh,
        populated := false, expanded := false, attached := true } := rfl

lemma checkStateOf_materialize (inh : CheckState) (e : FEntry) :
    checkStateOf (materialize inh e) = inh := by
  simp [materialize, checkStateOf]

lemma checkStateOf_map_materialize (d : NodeData) (v : CheckState) (h : List FEntry)
    (hdir : d.isDir = true)
    (hv : v = (if d.checkable then d.checked else .checked)) :
    checkStateOf (.mk d (h.map (materialize v)) []) = d.checked := by
  cases h with
  | nil => simp [checkStateOf]
  | cons e es =>
    by_cases hc : d.checkable = true
    · rw [checkStateOf]
      have hguard : (d.isDir && d.checkable && !((e :: es).map (materialize v)).isEmpty) = true := by
        simp [hdir, hc]
      rw [if_pos hguard, checkStateList_eq_map]
      have hcv : v = d.checked := by rw [hv, if_pos hc]
      subst hcv
      apply childrenCheckState_const
      · simp
      · intro x hx
        rw [List.map_map] at hx
        obtain ⟨y, _, rfl⟩ := List.mem_map.1 hx
        exact checkStateOf_materialize _ y
    · have hc2 : d.checkable = false := by simpa using hc
      rw [checkStateOf]
      rw [if_neg (by simp [hc2])]

lemma populate_shape (d : NodeData) (h : List FEntry) (force : Bool)
    (hdir : d.isDir = true) (hg : (d.populated && !force) = false) :
    populate (.mk d [] h) force =
      (if d.checked = .unchecked then
        .mk { d with populated := true }
          ((h.map (materialize (if d.checkable then d.checked else .checked))).map
            (fun c => c.setAttached false)) []
      else
        .mk { d with populated := true }
          (h.map (materialize (if d.checkable then d.checked else .checked))) []) := by
  have hst : checkStateOf (Node.mk d [] h) = d.checked := by
    simp [checkStateOf]
  have hmat := checkStateOf_map_materialize d (if d.checkable then d.checked else .checked) h hdir rfl
  rw [populate]
  rw [if_neg (by simp [Node.info, hg])]
  rw [if_neg (by simp [Node.info, hdir])]
  simp only [Node.info, Node.children, Node.hidden, List.nil_append, hst]
  rw [hmat]
  by_cases hu : d.checked = CheckState.unchecked
  · simp [hu, clearColl, Node.info, Node.children, Node.hidden]
  · simp [hu, clearColl]

/-- C7: for a directory node (with no materialized children, as at every
call site), populate — when the node is not yet populated, or forced —
creates one UI child per entry of the authoritative collection, each
child's stored check state inheriting the parent's current state when
the parent is user-checkable and Checked otherwise; and if the node's
check state is Unchecked, the authoritative children collection is
cleared immediately after the UI children are created (every new child
detached), leaving no entry without a widget item. -/
theorem C7_populate (n : Node) (force : Bool)
    (hdir : n.info.isDir = true)
    (hpop : n.info.populated = false ∨ force = true)
    (hkids : n.children = []) :
    (populate n force).info.populated = true
    ∧ (populate n force).children.map Node.name = n.hidden.map FEntry.name
    ∧ (∀ c ∈ (populate n force).children,
        c.info.checked = (if n.info.checkable then checkStateOf n else .checked))
    ∧ (populate n force).hidden = []
    ∧ (checkStateOf n = .unchecked →
        ((populate n force).children.all fun c => !c.info.attached) = true)
    ∧ (checkStateOf n ≠ .unchecked →
        ((populate n force).children.all fun c => c.info.attached) = true) := by
  obtain ⟨d, cs, h⟩ := n
  simp only [Node.info, Node.children, Node.hidden] at hdir hpop hkids ⊢
  subst hkids
  have hg : (d.populated && !force) = false := by
    rcases hpop with h1 | h1 <;> simp [h1]
  have hst : checkStateOf (Node.mk d [] h) = d.checked := by
    simp [checkStateOf]
  rw [populate_shape d h force hdir hg, hst]
  by_cases hu : d.checked = CheckState.unchecked
  · simp only [hu, if_pos]
    refine ⟨trivial, ?_, ?_, trivial, ?_, ?_⟩
    · simp [List.map_map, Function.comp_def, Node.name, Node.setAttached, Node.info, materialize]
    · intro c hc
      simp only [List.map_map, List.mem_map, Function.comp_def] at hc
      obtain ⟨e, _, rfl⟩ := hc
      simp [Node.setAttached, Node.info, materialize]
    · intro _
      simp [List.all_eq_true, List.map_map, Function.comp_def, Node.setAttached, Node.info, materialize]
    · intro hne
      exact absurd rfl hne
  · simp only [if_neg hu]
    refine ⟨trivial, ?_, ?_, trivial, ?_, ?_⟩
    · simp [List.map_map, Function.comp_def, Node.name, Node.info, materialize]
    · intro c hc
      simp only [List.mem_map] at hc
      obtain ⟨e, _, rfl⟩ := hc
      simp [Node.info, materialize]
    · intro hx
      exact absurd hx hu
    · intro _
      simp [List.all_eq_true, Node.info, materialize]

/-- A directory node used as the C7 witness input: unchecked, not yet
populated, with two entries in its authoritative collection. -/
def c7node : Node :=
  mkDirN "D" .unchecked false false false [] [.mk "a" false [], .mk "b" true [.mk "c" false []]]

/-- Witness for C7 at a concrete unpopulated unchecked directory. -/
theorem C7_populate_witness :
    (c7node.info.isDir = true)
    ∧ (c7node.info.populated = false ∨ false = true)
    ∧ (c7node.children = [])
    ∧ ((populate c7node false).children.map Node.name = c7node.hidden.map FEntry.name)
    ∧ ((populate c7node false).children.all fun c => !c.info.attached) = true :=
  ⟨by decide, Or.inl (by decide), by decide,
   (C7_populate c7node false (by decide) (Or.inl (by decide)) (by decide)).2.1,
   (C7_populate c7node false (by decide) (Or.inl (by decide)) (by decide)).2.2.2.2.1 (by decide)⟩

mutual
theorem setDataRun_busy (n : Node) (self : TPath) (v : CheckState) (x : TPath)
    (hx : x.length < self.length) :
    (setDataRun n self v (some x)).2.1 = some x ∧ (setDataRun n self v (some x)).2.2 = [] := by
  obtain ⟨d, cs, h⟩ := n
  rw [setDataRun]
  have hbusy : (some x : Option TPath).isNone = false := rfl
  simp only [hbusy, Bool.false_eq_true, if_false]
  by_cases hg : (d.isDir && d.checkable && !(v == CheckState.mixed)) = true
  · have hc := setDataChildren_busy cs self 0 v x (Nat.le_of_lt_succ (Nat.lt_succ_of_lt hx))
    simp only [if_pos hg, hc.1, hc.2]
    have hne : (some x == some self) = false := by
      have : x ≠ self := by
        intro he
        rw [he] at hx
        exact Nat.lt_irrefl _ hx
      simp [this]
    simp [hne]
  · simp only [if_neg hg]
    have hne : (some x == some self) = false := by
      have : x ≠ self := by
        intro he
        rw [he] at hx
        exact Nat.lt_irrefl _ hx
      simp [this]
    simp [hne]
theorem setDataChildren_busy (cs : List Node) (par : TPath) (i : Nat) (v : CheckState)
    (x : TPath) (hx : x.length ≤ par.length) :
    (setDataChildren cs par i v (some x)).2.1 = some x
    ∧ (setDataChildren cs par i v (some x)).2.2 = [] := by
  match cs with
  | [] => rw [setDataChildren]; exact ⟨rfl, rfl⟩
  | c :: rest =>
    rw [setDataChildren]
    have h1 := setDataRun_busy c (par ++ [i]) v x
      (by simpa using Nat.lt_succ_of_le hx)
    have h2 := setDataChildren_busy rest par (i + 1) v x hx
    simp only [h1.1, h1.2, h2.1, h2.2]
    trivial
end

theorem setDataRun_outer (n : Node) (self : TPath) (v : CheckState) :
    (setDataRun n self v none).2.1 = none ∧ (setDataRun n self v none).2.2 = [self] := by
  obtain ⟨d, cs, h⟩ := n
  rw [setDataRun]
  have hfree : (if (none : Option TPath).isNone = true then some self else (none : Option TPath))
      = some self := rfl
  simp only [hfree]
  by_cases hg : (d.isDir && d.checkable && !(v == CheckState.mixed)) = true
  · have hc := setDataChildren_busy cs self 0 v self (Nat.le_refl _)
    simp only [if_pos hg, hc.1, hc.2]
    simp
  · simp only [if_neg hg]
    simp

/-- C9: a user toggle on the item at `p` — for all the redundant
`setData` calls the toolkit cascades through the item's descendants —
emits exactly one `treeCheckStateChanged` notification, identifying the
toggled item, and the single-slot emitter marker is cleared (back to
`none`) when the outermost `setData` call returns. -/
theorem C9_single_emission (root : Node) (p : TPath) (v : CheckState) (n : Node)
    (h : nodeAt root p = some n) :
    (treeSetCheckState root p v).2 = [p] ∧ (setDataRun n p v none).2.1 = none := by
  constructor
  · unfold treeSetCheckState
    rw [h]
    simp [(setDataRun_outer n p v).2]
  · exact (setDataRun_outer n p v).1

/-- A tree with a populated directory (holding a file) used by the C9
witness. -/
def c9root : Node :=
  mkRootN [mkDirN "D" .checked true true true [mkFileN "E" .checked true] []]

/-- Witness for C9: toggling the directory at path [0] emits exactly one
notification, for that path. -/
theorem C9_single_emission_witness :
    nodeAt c9root [0] = some (mkDirN "D" .checked true true true [mkFileN "E" .checked true] [])
    ∧ (treeSetCheckState c9root [0] .unchecked).2 = [[0]] :=
  ⟨by decide,
   (C9_single_emission c9root [0] .unchecked
     (mkDirN "D" .checked true true true [mkFileN "E" .checked true] []) (by decide)).1⟩

lemma nodeAtList_eq_getElem (cs : List Node) (i : Nat) (q : TPath) :
    nodeAtList cs i q = match cs[i]? with
      | some c => nodeAt c q
      | none => none := by
  induction cs generalizing i with
  | nil => cases i <;> rfl
  | cons c rest ih =>
    cases i with
    | zero => simp [nodeAtList]
    | succ j => rw [nodeAtList, ih]; simp

lemma modifyAtList_eq_modList (cs : List Node) (i : Nat) (r : TPath) (f : Node → Node) :
    modifyAtList cs i r f = modList cs i (fun c => modifyAt c r f) := by
  induction cs generalizing i with
  | nil => cases i <;> rfl
  | cons c rest ih =>
    cases i with
    | zero => rfl
    | succ j => rw [modifyAtList, modList, ih]

lemma getElem?_modList_ne {α : Type} (cs : List α) (i j : Nat) (f : α → α) (hij : i ≠ j) :
    (modList cs i f)[j]? = cs[j]? := by
  induction cs generalizing i j with
  | nil => cases i <;> rfl
  | cons c rest ih =>
    cases i with
    | zero =>
      cases j with
      | zero => exact absurd rfl hij
      | succ j2 => rfl
    | succ i2 =>
      cases j with
      | zero => simp [modList]
      | succ j2 =>
        rw [modList]
        simp only [List.getElem?_cons_succ]
        exact ih i2 j2 (fun he => hij (by rw [he]))

lemma getElem?_modList_eq {α : Type} (cs : List α) (i : Nat) (f : α → α) :
    (modList cs i f)[i]? = (cs[i]?).map f := by
  induction cs generalizing i with
  | nil => cases i <;> rfl
  | cons c rest ih =>
    cases i with
    | zero => simp [modList]
    | succ i2 =>
      rw [modList]
      simp only [List.getElem?_cons_succ]
      exact ih i2

lemma length_modList {α : Type} (cs : List α) (i : Nat) (f : α → α) :
    (modList cs i f).length = cs.length := by
  induction cs generalizing i with
  | nil => cases i <;> rfl
  | cons c rest ih =>
    cases i with
    | zero => rfl
    | succ i2 => rw [modList]; simp [ih]

lemma isPrefixOf_cons_cons (a b : Nat) (as bs : List Nat) :
    (a :: as).isPrefixOf (b :: bs) = ((a == b) && as.isPrefixOf bs) := rfl

/-- The master decomposition: reading at `q` after modifying at `r`. -/
lemma nodeAt_modifyAt (root : Node) (r q : TPath) (f : Node → Node) :
    nodeAt (modifyAt root r f) q =
      if r.isPrefixOf q then (nodeAt root r).bind (fun m => nodeAt (f m) (q.drop r.length))
      else if q.isPrefixOf r then (nodeAt root q).map (fun m => modifyAt m (r.drop q.length) f)
      else nodeAt root q := by
  induction r generalizing root q with
  | nil =>
    simp [modifyAt, List.isPrefixOf, nodeAt]
  | cons i r2 ih =>
    cases q with
    | nil =>
      simp [nodeAt, List.isPrefixOf]
    | cons j q2 =>
      obtain ⟨d, cs, h⟩ := root
      have hL : nodeAt (modifyAt (Node.mk d cs h) (i :: r2) f) (j :: q2)
          = nodeAtList (modifyAtList cs i r2 f) j q2 := rfl
      have hRr : nodeAt (Node.mk d cs h) (i :: r2) = nodeAtList cs i r2 := rfl
      have hRq : nodeAt (Node.mk d cs h) (j :: q2) = nodeAtList cs j q2 := rfl
      rw [hL, hRr, hRq, modifyAtList_eq_modList, nodeAtList_eq_getElem,
        nodeAtList_eq_getElem, nodeAtList_eq_getElem]
      by_cases hij : i = j
      · subst hij
        rw [getElem?_modList_eq, isPrefixOf_cons_cons, isPrefixOf_cons_cons]
        simp only [beq_self_eq_true, Bool.true_and, List.length_cons, List.drop_succ_cons]
        cases hc : cs[i]? with
        | none =>
          simp only [Option.map_none']
          split <;> simp
        | some c =>
          simp only [Option.map_some', Option.some_bind]
          rw [ih c q2]
      · have hji : j ≠ i := fun he => hij he.symm
        rw [getElem?_modList_ne cs i j (fun c => modifyAt c r2 f) hij,
          isPrefixOf_cons_cons, isPrefixOf_cons_cons]
        have hb1 : (i == j) = false := by simp [hij]
        have hb2 : (j == i) = false := by simp [hji]
        rw [hb1, hb2]
        simp

lemma isPrefixOf_self (p : TPath) : p.isPrefixOf p = true := by
  induction p with
  | nil => rfl
  | cons i p2 ih => simp [List.isPrefixOf, ih]

lemma nodeAt_nil (n : Node) : nodeAt n [] = some n := by
  rw [nodeAt]

lemma nodeAt_modifyAt_self (root : Node) (p : TPath) (f : Node → Node) :
    nodeAt (modifyAt root p f) p = (nodeAt root p).map f := by
  rw [nodeAt_modifyAt]
  rw [if_pos (isPrefixOf_self p)]
  cases hm : nodeAt root p with
  | none => rfl
  | some m => simp [List.drop_length, nodeAt_nil]

mutual
theorem modifyAt_id (root : Node) (p : TPath) (f : Node → Node)
    (h : ∀ m, nodeAt root p = some m → f m = m) : modifyAt root p f = root := by
  match root, p with
  | n, [] =>
    rw [modifyAt]
    exact h n (nodeAt_nil n)
  | .mk d cs hh, i :: p2 =>
    rw [modifyAt]
    rw [modifyAtList_id cs i p2 f (fun m hm => h m hm)]
theorem modifyAtList_id (cs : List Node) (i : Nat) (p : TPath) (f : Node → Node)
    (h : ∀ m, nodeAtList cs i p = some m → f m = m) : modifyAtList cs i p f = cs := by
  match cs, i with
  | [], _ => rw [modifyAtList]
  | c :: rest, 0 =>
    rw [modifyAtList]
    rw [modifyAt_id c p f (fun m hm => h m hm)]
  | c :: rest, j + 1 =>
    rw [modifyAtList]
    rw [modifyAtList_id rest j p f (fun m hm => h m hm)]
end

/-- The item at `p` and every ancestor below the view root is attached
(the already-attached side condition for attachParents idempotence),
walked over the reversed path. -/
def chainAttachedRev (root : Node) : TPath → Bool
  | [] => true
  | i :: rest =>
    (match nodeAt root ((i :: rest).reverse) with
     | some m => m.info.attached
     | none => false) && chainAttachedRev root rest

def chainAttached (root : Node) (p : TPath) : Bool :=
  chainAttachedRev root p.reverse

lemma nodeAt_append (root : Node) (q r : TPath) :
    nodeAt root (q ++ r) = (nodeAt root q).bind (fun m => nodeAt m r) := by
  induction q generalizing root with
  | nil => simp [nodeAt_nil]
  | cons i q2 ih =>
    obtain ⟨d, cs, h⟩ := root
    rw [show (i :: q2) ++ r = i :: (q2 ++ r) from rfl]
    rw [show nodeAt (Node.mk d cs h) (i :: (q2 ++ r)) = nodeAtList cs i (q2 ++ r) from rfl]
    rw [show nodeAt (Node.mk d cs h) (i :: q2) = nodeAtList cs i q2 from rfl]
    rw [nodeAtList_eq_getElem, nodeAtList_eq_getElem]
    cases hc : cs[i]? with
    | none => rfl
    | some c => simp [ih c]

lemma nodeAt_single (m : Node) (i : Nat) : nodeAt m [i] = m.children[i]? := by
  obtain ⟨d, cs, h⟩ := m
  rw [show nodeAt (Node.mk d cs h) [i] = nodeAtList cs i [] from rfl, nodeAtList_eq_getElem]
  rw [show (Node.mk d cs h).children = cs from rfl]
  cases hc : cs[i]? with
  | none => rfl
  | some c => simp [nodeAt_nil]

lemma attachChildIn_attached (par : Node) (i : Nat) (c : Node)
    (hc : par.children[i]? = some c) (hatt : c.info.attached = true) :
    attachChildIn par i = par := by
  rw [attachChildIn, hc]
  simp [hatt]

lemma attachParentsRev_chain_id (root : Node) (rq : TPath)
    (h : chainAttachedRev root rq = true) : attachParentsRev root rq = root := by
  induction rq with
  | nil => rfl
  | cons i rest ih =>
    rw [chainAttachedRev, Bool.and_eq_true] at h
    rw [attachParentsRev]
    have hstep : modifyAt root rest.reverse (fun par => attachChildIn par i) = root := by
      apply modifyAt_id
      intro m hm
      have hx : nodeAt root ((i :: rest).reverse) = (nodeAt root rest.reverse).bind
          (fun par => par.children[i]?) := by
        rw [show (i :: rest).reverse = rest.reverse ++ [i] from by simp]
        rw [nodeAt_append]
        cases nodeAt root rest.reverse with
        | none => rfl
        | some par => simp [nodeAt_single]
      have h1 := h.1
      rw [hx, hm] at h1
      simp only [Option.some_bind] at h1
      cases hcc : m.children[i]? with
      | none =>
        rw [attachChildIn, hcc]
      | some c =>
        rw [hcc] at h1
        exact attachChildIn_attached m i c hcc h1
    rw [hstep]
    exact ih h.2

/-- C5: for a node whose entry is already attached all along its
ancestor chain, one call of attachParents leaves the tree unchanged, so
calling it twice produces the same authoritative tree as calling it
once. -/
theorem C5_attachParents_idem (root : Node) (p : TPath)
    (h : chainAttached root p = true) :
    attachParents (attachParents root p) p = attachParents root p := by
  have h1 : attachParents root p = root := attachParentsRev_chain_id root p.reverse h
  rw [h1, h1]

/-- A tree whose chain down to the file at [0, 0] is fully attached. -/
def c5root : Node :=
  mkRootN [mkDirN "A" .checked true true true [mkFileN "B" .checked true] []]

/-- Witness for C5 at a concrete attached chain. -/
theorem C5_attachParents_idem_witness :
    chainAttached c5root [0, 0] = true
    ∧ attachParents (attachParents c5root [0, 0]) [0, 0] = attachParents c5root [0, 0] :=
  ⟨by decide, C5_attachParents_idem c5root [0, 0] (by decide)⟩

/-- The frame relation of C10 between a tree and its updated version,
relative to the chain of the path `p`: every node keeps its collection
entries without widget items, its child count, and all of its item data
except possibly the attachment flag, which can only go from detached to
attached; and every node not on the chain of `p` (its path not a prefix
of `p`) is entirely unchanged, subtree included. -/
def frameRel (p : TPath) (a b : Node) : Prop :=
  ∀ q : TPath,
    ((nodeAt b q).map Node.hidden = (nodeAt a q).map Node.hidden)
    ∧ ((nodeAt b q).map (fun m => m.children.length)
        = (nodeAt a q).map (fun m => m.children.length))
    ∧ ((nodeAt b q).map (fun m => { m.info with attached := false })
        = (nodeAt a q).map (fun m => { m.info with attached := false }))
    ∧ ((nodeAt b q).map (fun m => m.info.attached) = (nodeAt a q).map (fun m => m.info.attached)
       ∨ ((nodeAt a q).map (fun m => m.info.attached) = some false
          ∧ (nodeAt b q).map (fun m => m.info.attached) = some true))
    ∧ (q.isPrefixOf p = false → nodeAt b q = nodeAt a q)

lemma frameRel_refl (p : TPath) (a : Node) : frameRel p a a := by
  intro q
  exact ⟨rfl, rfl, rfl, Or.inl rfl, fun _ => rfl⟩

lemma frameRel_trans (p : TPath) (a b c : Node)
    (h1 : frameRel p a b) (h2 : frameRel p b c) : frameRel p a c := by
  intro q
  obtain ⟨a1, a2, a3, a4, a5⟩ := h1 q
  obtain ⟨b1, b2, b3, b4, b5⟩ := h2 q
  refine ⟨b1.trans a1, b2.trans a2, b3.trans a3, ?_, fun hq => (b5 hq).trans (a5 hq)⟩
  rcases a4 with a4 | ⟨a4f, a4t⟩
  · rcases b4 with b4 | ⟨b4f, b4t⟩
    · exact Or.inl (b4.trans a4)
    · exact Or.inr ⟨a4.symm.trans b4f, b4t⟩
  · rcases b4 with b4 | ⟨b4f, b4t⟩
    · exact Or.inr ⟨a4f, b4.trans a4t⟩
    · exact absurd (a4t.symm.trans b4f) (by simp)

lemma setAttached_parts (c : Node) (b : Bool) :
    (c.setAttached b).children = c.children
    ∧ (c.setAttached b).hidden = c.hidden
    ∧ ({ (c.setAttached b).info with attached := false } = { c.info with attached := false })
    ∧ (c.setAttached b).info.attached = b := by
  obtain ⟨d, cs, h⟩ := c
  exact ⟨rfl, rfl, rfl, rfl⟩

lemma nodeAt_setAttached_cons (c : Node) (b : Bool) (j : Nat) (s : TPath) :
    nodeAt (c.setAttached b) (j :: s) = nodeAt c (j :: s) := by
  obtain ⟨d, cs, h⟩ := c
  rfl

lemma attachChildIn_spec (par : Node) (i : Nat) :
    attachChildIn par i = par
    ∨ ∃ c, par.children[i]? = some c ∧ c.info.attached = false
        ∧ attachChildIn par i
          = .mk par.info (modList par.children i (fun x => x.setAttached true)) par.hidden := by
  rw [attachChildIn]
  cases hc : par.children[i]? with
  | none => exact Or.inl rfl
  | some c =>
    have hred : (match some c with
        | none => par
        | some c =>
          if (!c.info.attached && !((collNames par).contains c.info.name)) = true then
            Node.mk par.info (modList par.children i fun x => x.setAttached true) par.hidden
          else par)
        = (if (!c.info.attached && !((collNames par).contains c.info.name)) = true then
            Node.mk par.info (modList par.children i fun x => x.setAttached true) par.hidden
          else par) := rfl
    rw [hred]
    by_cases hg : (!c.info.attached && !((collNames par).contains c.info.name)) = true
    · refine Or.inr ⟨c, rfl, ?_, ?_⟩
      · rw [Bool.and_eq_true] at hg
        simpa using hg.1
      · rw [if_pos hg]
    · rw [if_neg hg]
      exact Or.inl rfl

lemma isPrefixOf_iff (a b : TPath) : a.isPrefixOf b = true ↔ ∃ t, b = a ++ t := by
  induction a generalizing b with
  | nil => simp [List.isPrefixOf]
  | cons x xs ih =>
    cases b with
    | nil => simp [List.isPrefixOf]
    | cons y ys =>
      rw [isPrefixOf_cons_cons, Bool.and_eq_true, beq_iff_eq, ih]
      constructor
      · rintro ⟨rfl, t, rfl⟩
        exact ⟨t, rfl⟩
      · rintro ⟨t, he⟩
        injection he with h1 h2
        exact ⟨h1.symm, t, h2⟩

lemma isPrefixOf_trans (a b c : TPath) (h1 : a.isPrefixOf b = true)
    (h2 : b.isPrefixOf c = true) : a.isPrefixOf c = true := by
  obtain ⟨t1, rfl⟩ := (isPrefixOf_iff a b).1 h1
  obtain ⟨t2, rfl⟩ := (isPrefixOf_iff _ c).1 h2
  exact (isPrefixOf_iff _ _).2 ⟨t1 ++ t2, by simp⟩

lemma isPrefixOf_append_self (a t : TPath) : a.isPrefixOf (a ++ t) = true :=
  (isPrefixOf_iff _ _).2 ⟨t, rfl⟩

lemma modifyAt_cons_shape (m : Node) (x : Nat) (xs : TPath) (f : Node → Node) :
    modifyAt m (x :: xs) f = .mk m.info (modifyAtList m.children x xs f) m.hidden := by
  obtain ⟨d, cs, h⟩ := m
  rw [modifyAt]
  rfl

lemma length_modifyAtList (cs : List Node) (i : Nat) (p : TPath) (f : Node → Node) :
    (modifyAtList cs i p f).length = cs.length := by
  rw [modifyAtList_eq_modList, length_modList]

lemma frameRel_step (root : Node) (r : TPath) (i : Nat) (p : TPath)
    (hpre : (r ++ [i]).isPrefixOf p = true) :
    frameRel p root (modifyAt root r (fun par => attachChildIn par i)) := by
  have hrp : r.isPrefixOf p = true :=
    isPrefixOf_trans r (r ++ [i]) p (isPrefixOf_append_self r [i]) hpre
  intro q
  have hmaster := nodeAt_modifyAt root r q (fun par => attachChildIn par i)
  by_cases h1 : r.isPrefixOf q = true
  · obtain ⟨s, rfl⟩ := (isPrefixOf_iff r q).1 h1
    rw [if_pos h1, List.drop_left] at hmaster
    have happ := nodeAt_append root r s
    cases hm : nodeAt root r with
    | none =>
      rw [hm] at hmaster happ
      simp only [Option.none_bind] at hmaster happ
      rw [hmaster, happ]
      exact ⟨rfl, rfl, rfl, Or.inl rfl, fun _ => rfl⟩
    | some m =>
      rw [hm] at hmaster happ
      simp only [Option.some_bind] at hmaster happ
      rcases attachChildIn_spec m i with hid | ⟨c, hcc, hcf, hform⟩
      · rw [hid] at hmaster
        rw [hmaster, happ]
        exact ⟨rfl, rfl, rfl, Or.inl rfl, fun _ => rfl⟩
      · rw [hform] at hmaster
        cases s with
        | nil =>
          rw [nodeAt_nil] at hmaster happ
          rw [hmaster, happ]
          refine ⟨rfl, ?_, rfl, Or.inl rfl, ?_⟩
          · simp only [Option.map_some']
            obtain ⟨dm, cm, hm2⟩ := m
            simp [length_modList, Node.children]
          · intro hq
            rw [List.append_nil] at hq
            rw [hrp] at hq
            cases hq
        | cons j s2 =>
          have hL : nodeAt (Node.mk m.info (modList m.children i (fun x => x.setAttached true))
              m.hidden) (j :: s2)
              = nodeAtList (modList m.children i (fun x => x.setAttached true)) j s2 := rfl
          have hR : nodeAt m (j :: s2) = nodeAtList m.children j s2 := by
            obtain ⟨dm, cm, hm2⟩ := m
            rfl
          rw [hL, nodeAtList_eq_getElem] at hmaster
          rw [hR, nodeAtList_eq_getElem] at happ
          by_cases hij : j = i
          · subst hij
            rw [getElem?_modList_eq, hcc] at hmaster
            rw [hcc] at happ
            simp only [Option.map_some'] at hmaster
            cases s2 with
            | nil =>
              simp only [nodeAt_nil] at hmaster happ
              rw [hmaster, happ]
              obtain ⟨p1, p2, p3, p4⟩ := setAttached_parts c true
              refine ⟨by simp [p2], by simp [p1], by simp [p3], ?_, ?_⟩
              · exact Or.inr ⟨by simp [hcf], by simp [p4]⟩
              · intro hq
                rw [hpre] at hq
                cases hq
            | cons k s3 =>
              simp only [nodeAt_setAttached_cons] at hmaster
              rw [hmaster, happ]
              exact ⟨rfl, rfl, rfl, Or.inl rfl, fun _ => rfl⟩
          · rw [getElem?_modList_ne _ _ _ _ (fun he => hij he.symm)] at hmaster
            rw [hmaster, happ]
            exact ⟨rfl, rfl, rfl, Or.inl rfl, fun _ => rfl⟩
  · by_cases h2 : q.isPrefixOf r = true
    · rw [if_neg h1, if_pos h2] at hmaster
      obtain ⟨t, rfl⟩ := (isPrefixOf_iff q r).1 h2
      rw [List.drop_left] at hmaster
      have ht : t ≠ [] := by
        rintro rfl
        rw [List.append_nil] at h1
        exact h1 (isPrefixOf_self q)
      obtain ⟨x, xs, rfl⟩ := List.exists_cons_of_ne_nil ht
      cases hm : nodeAt root q with
      | none =>
        rw [hm] at hmaster
        simp only [Option.map_none'] at hmaster
        rw [hmaster]
        exact ⟨rfl, rfl, rfl, Or.inl rfl, fun _ => rfl⟩
      | some m =>
        rw [hm] at hmaster
        simp only [Option.map_some'] at hmaster
        rw [modifyAt_cons_shape] at hmaster
        rw [hmaster]
        refine ⟨?_, ?_, ?_, ?_, ?_⟩
        · simp only [Option.map_some']
          obtain ⟨dm, cm, hm2⟩ := m
          simp [Node.hidden]
        · simp only [Option.map_some']
          obtain ⟨dm, cm, hm2⟩ := m
          simp [Node.children, length_modifyAtList]
        · simp only [Option.map_some']
          obtain ⟨dm, cm, hm2⟩ := m
          simp [Node.info]
        · left
          simp only [Option.map_some']
          obtain ⟨dm, cm, hm2⟩ := m
          simp [Node.info]
        · intro hq
          have hqp : q.isPrefixOf p = true :=
            isPrefixOf_trans q (q ++ x :: xs) p (isPrefixOf_append_self q (x :: xs))
              (isPrefixOf_trans _ (q ++ x :: xs ++ [i]) p (isPrefixOf_append_self _ [i]) hpre)
          rw [hqp] at hq
          cases hq
    · rw [if_neg h1, if_neg h2] at hmaster
      rw [hmaster]
      exact ⟨rfl, rfl, rfl, Or.inl rfl, fun _ => rfl⟩

lemma attachParentsRev_frame (root : Node) (rq : TPath) (p : TPath)
    (hsuf : rq.reverse.isPrefixOf p = true) :
    frameRel p root (attachParentsRev root rq) := by
  induction rq generalizing root with
  | nil => exact frameRel_refl p root
  | cons i rest ih =>
    rw [attachParentsRev]
    have hflip : (rest.reverse ++ [i]).isPrefixOf p = true := by
      simpa using hsuf
    have hstep : frameRel p root (modifyAt root rest.reverse (fun par => attachChildIn par i)) :=
      frameRel_step root rest.reverse i p hflip
    have hrest : rest.reverse.isPrefixOf p = true :=
      isPrefixOf_trans _ (rest.reverse ++ [i]) _ (isPrefixOf_append_self _ _) hflip
    exact frameRel_trans p _ _ _ hstep (ih _ hrest)

/-- C10: attachParents only inserts along the ancestor chain of the item
at `p` and never removes or clears anything — every node keeps its exact
collection entries without widget items, its child count and all its
item data except that the attachment flag can only go from detached to
attached, and every node whose path is not on the chain (not a prefix of
`p`), including the other children of each chain directory, is left
entirely unchanged, subtree included. -/
theorem C10_attachParents_frame (root : Node) (p : TPath) :
    frameRel p root (attachParents root p) := by
  rw [attachParents]
  exact attachParentsRev_frame root p.reverse p (by simp [isPrefixOf_self])

/-- A tree with a detached chain (directory A and its file B) plus an
unrelated attached file C, used by the C10 witness. -/
def c10root : Node :=
  mkRootN [mkDirN "A" .checked true true false [mkFileN "B" .checked false] [],
    mkFileN "C" .checked true]

/-- Witness for C10: re-attaching the chain of [0, 0] leaves the
off-chain file C at [1] entirely unchanged (while the chain does change:
A becomes attached). -/
theorem C10_attachParents_frame_witness :
    (nodeAt (attachParents c10root [0, 0]) [1] = nodeAt c10root [1])
    ∧ (nodeAt (attachParents c10root [0, 0]) [0]).map (fun m => m.info.attached) = some true :=
  ⟨(C10_attachParents_frame c10root [0, 0] [1]).2.2.2.2 (by decide), by decide⟩

lemma contains_iff_mem (l : List String) (a : String) : l.contains a = true ↔ a ∈ l := by
  simp [List.contains_iff_exists_mem_beq]

lemma set_self_of_getElem? {α : Type} (l : List α) (j : Nat) (a : α) (h : l[j]? = some a) :
    l.set j a = l := by
  induction l generalizing j with
  | nil => simp at h
  | cons x rest ih =>
    cases j with
    | zero =>
      simp only [List.getElem?_cons_zero, Option.some_inj] at h
      simp [h]
    | succ j2 =>
      simp only [List.getElem?_cons_succ] at h
      simp [ih j2 h]

lemma findIdx?_some_spec {α : Type} (p : α → Bool) (xs : List α) (s i : Nat)
    (h : List.findIdx? p xs s = some i) :
    ∃ j c, i = s + j ∧ xs[j]? = some c ∧ p c = true := by
  induction xs generalizing s with
  | nil => simp [List.findIdx?] at h
  | cons x rest ih =>
    rw [List.findIdx?_cons] at h
    by_cases hp : p x = true
    · rw [if_pos hp] at h
      injection h with h
      exact ⟨0, x, by omega, by simp, hp⟩
    · rw [if_neg hp] at h
      obtain ⟨j, c, hi, hg, hpc⟩ := ih (s + 1) h
      exact ⟨j + 1, c, by omega, by simpa using hg, hpc⟩

lemma insertFE_parts (d e : FEntry) :
    (insertFE d e).name = d.name ∧ (insertFE d e).isDir = d.isDir := by
  obtain ⟨dn, dd, dk⟩ := d
  obtain ⟨en, ed, ek⟩ := e
  rw [insertFE]
  constructor
  · split
    · split
      · split <;> rfl
      · rfl
    · rfl
  · split
    · split
      · split <;> rfl
      · rfl
    · rfl

lemma mergeListFE_parts (es : List FEntry) : ∀ d : FEntry,
    (mergeListFE d es).name = d.name ∧ (mergeListFE d es).isDir = d.isDir := by
  induction es with
  | nil => intro d; rw [mergeListFE]; exact ⟨rfl, rfl⟩
  | cons e rest ih =>
    intro d
    rw [mergeListFE]
    obtain ⟨h1, h2⟩ := ih (insertFE d e)
    obtain ⟨h3, h4⟩ := insertFE_parts d e
    exact ⟨h1.trans h3, h2.trans h4⟩

lemma insertMerge_info (t : Node) (e : FEntry) : (insertMerge t e).info = t.info := by
  obtain ⟨en, ed, ek⟩ := e
  rw [insertMerge]
  split
  · split
    · split <;> rfl
    · rfl
  · split
    · split
      · split <;> rfl
      · rfl
    · rfl

lemma mergeIntoNode_info (es : List FEntry) : ∀ c : Node, (mergeIntoNode c es).info = c.info := by
  induction es with
  | nil => intro c; rw [mergeIntoNode]
  | cons e rest ih =>
    intro c
    rw [mergeIntoNode]
    exact (ih (insertMerge c e)).trans (insertMerge_info c e)

lemma modList_congr {α : Type} (cs : List α) (i : Nat) (f g : α → α)
    (h : ∀ c, cs[i]? = some c → f c = g c) : modList cs i f = modList cs i g := by
  induction cs generalizing i with
  | nil => cases i <;> rfl
  | cons x rest ih =>
    cases i with
    | zero =>
      rw [modList, modList, h x (by simp)]
    | succ i2 =>
      rw [modList, modList, ih i2 (fun c hc => h c (by simpa using hc))]

lemma filtermap_modList_info (cs : List Node) (i : Nat) (f : Node → Node)
    (hf : ∀ x, (f x).info = x.info) :
    ((modList cs i f).filter (fun c => c.info.attached)).map Node.name
      = (cs.filter (fun c => c.info.attached)).map Node.name := by
  induction cs generalizing i with
  | nil => cases i <;> rfl
  | cons x rest ih =>
    cases i with
    | zero =>
      rw [modList]
      by_cases hx : x.info.attached = true
      · rw [List.filter_cons, List.filter_cons]
        simp only [hf x, hx, if_pos]
        simp [Node.name, hf x]
      · rw [List.filter_cons, List.filter_cons]
        have : (f x).info.attached = false := by rw [hf x]; simpa using hx
        simp [this, Bool.eq_false_iff.2 hx]
    | succ i2 =>
      rw [modList]
      rw [List.filter_cons, List.filter_cons]
      by_cases hx : x.info.attached = true
      · simp [hx, Node.name, ih i2]
      · simp [Bool.eq_false_iff.2 hx, ih i2]

lemma filtermap_modList_detach (cs : List Node) (i : Nat) (c : Node) (hc : cs[i]? = some c) :
    ∀ nm2, nm2 ∈ (cs.filter (fun x => x.info.attached)).map Node.name →
      nm2 ∈ ((modList cs i (fun x => x.setAttached false)).filter
          (fun x => x.info.attached)).map Node.name
      ∨ nm2 = c.info.name := by
  induction cs generalizing i with
  | nil => intro nm2 h; simp at h
  | cons x rest ih =>
    cases i with
    | zero =>
      simp only [List.getElem?_cons_zero, Option.some_inj] at hc
      subst hc
      intro nm2 hm
      rw [modList]
      have hdet : ((fun y : Node => y.setAttached false) x).info.attached = false := by
        obtain ⟨d2, c2, h2⟩ := x
        rfl
      rw [List.filter_cons]
      simp only [hdet]
      rw [List.filter_cons] at hm
      by_cases hx : x.info.attached = true
      · rw [if_pos hx] at hm
        simp only [List.map_cons, List.mem_cons] at hm
        rcases hm with hm | hm
        · exact Or.inr (by simpa [Node.name] using hm)
        · simp only [Bool.false_eq_true, if_false]
          exact Or.inl hm
      · rw [if_neg hx] at hm
        simp only [Bool.false_eq_true, if_false]
        exact Or.inl hm
    | succ i2 =>
      simp only [List.getElem?_cons_succ] at hc
      intro nm2 hm
      rw [modList, List.filter_cons]
      rw [List.filter_cons] at hm
      by_cases hx : x.info.attached = true
      · rw [if_pos hx] at hm ⊢
        simp only [List.map_cons, List.mem_cons] at hm ⊢
        rcases hm with hm | hm
        · exact Or.inl (Or.inl hm)
        · rcases ih i2 hc nm2 hm with h2 | h2
          · exact Or.inl (Or.inr h2)
          · exact Or.inr h2
      · rw [if_neg hx] at hm ⊢
        rcases ih i2 hc nm2 hm with h2 | h2
        · exact Or.inl h2
        · exact Or.inr h2

lemma collNames_mk (d : NodeData) (cs : List Node) (h : List FEntry) :
    collNames (.mk d cs h)
      = (cs.filter (fun c => c.info.attached)).map Node.name ++ h.map FEntry.name := rfl

lemma existsName_mk (d : NodeData) (cs : List Node) (h : List FEntry) (nm : String) :
    existsName (.mk d cs h) nm
      = ((cs.filter (fun c => c.info.attached)).map Node.name ++ h.map FEntry.name).contains nm
    := rfl

theorem insertMerge_preserves (t : Node) (e : FEntry) (nm2 : String)
    (h : existsName t nm2 = true) : existsName (insertMerge t e) nm2 = true := by
  obtain ⟨en, ed, ek⟩ := e
  rw [insertMerge]
  split
  next i hfi =>
    split
    next c hci =>
      obtain ⟨j, c2, hij, hcj, hpc⟩ := findIdx?_some_spec _ t.children 0 i hfi
      have hcc : c2 = c := by
        rw [show i = j from by omega] at hci
        rw [hci] at hcj
        exact (Option.some_inj.1 hcj).symm
      subst hcc
      rw [Bool.and_eq_true, beq_iff_eq] at hpc
      obtain ⟨td, tcs, th⟩ := t
      simp only [Node.children, Node.info, Node.hidden] at hci h ⊢
      split
      next hdd =>
        rw [existsName_mk, filtermap_modList_info tcs i _ (fun x => mergeIntoNode_info ek x)]
        exact h
      next hdd =>
        rw [existsName_mk]
        rw [existsName_mk] at h
        rw [contains_iff_mem] at h ⊢
        rw [List.mem_append] at h
        rcases h with h | h
        · rcases filtermap_modList_detach tcs i c2 hci nm2 h with h2 | h2
          · exact List.mem_append.2 (Or.inl h2)
          · refine List.mem_append.2 (Or.inr ?_)
            rw [List.map_append, List.mem_append]
            right
            simp [FEntry.name, h2, hpc.2]
        · refine List.mem_append.2 (Or.inr ?_)
          rw [List.map_append, List.mem_append]
          exact Or.inl h
    next hci => exact h
  next hfi =>
    split
    next j hfj =>
      split
      next old hoj =>
        obtain ⟨j2, old2, hjj, hoj2, hpo⟩ := findIdx?_some_spec _ t.hidden 0 j hfj
        have hoo : old2 = old := by
          rw [show j = j2 from by omega] at hoj
          rw [hoj] at hoj2
          exact (Option.some_inj.1 hoj2).symm
        subst hoo
        rw [beq_iff_eq] at hpo
        obtain ⟨td, tcs, th⟩ := t
        simp only [Node.children, Node.info, Node.hidden] at hoj h ⊢
        split
        next hdd =>
          rw [existsName_mk]
          rw [existsName_mk] at h
          have hset : (th.set j (mergeListFE old2 ek)).map FEntry.name = th.map FEntry.name := by
            rw [List.map_set, (mergeListFE_parts ek old2).1]
            apply set_self_of_getElem?
            rw [List.getElem?_map, hoj]
            rfl
          rw [hset]
          exact h
        next hdd =>
          rw [existsName_mk]
          rw [existsName_mk] at h
          have hset : (th.set j (FEntry.mk en ed ek)).map FEntry.name = th.map FEntry.name := by
            rw [List.map_set]
            have he2 : FEntry.name (FEntry.mk en ed ek) = old2.name := by
              rw [hpo]; rfl
            rw [he2]
            apply set_self_of_getElem?
            rw [List.getElem?_map, hoj]
            rfl
          rw [hset]
          exact h
      next hoj => exact h
    next hfj =>
      obtain ⟨td, tcs, th⟩ := t
      simp only [Node.children, Node.info, Node.hidden] at h ⊢
      rw [existsName_mk]
      rw [existsName_mk] at h
      rw [contains_iff_mem] at h ⊢
      rw [List.mem_append] at h
      rcases h with h | h
      · exact List.mem_append.2 (Or.inl h)
      · refine List.mem_append.2 (Or.inr ?_)
        rw [List.map_append, List.mem_append]
        exact Or.inl h

theorem mem_set_self {α : Type} (l : List α) (i : Nat) (a : α) (h : i < l.length) :
    a ∈ l.set i a := by
  induction l generalizing i with
  | nil => simp at h
  | cons x xs ih =>
    cases i with
    | zero => simp
    | succ n =>
      rw [List.set_cons_succ]
      exact List.mem_cons_of_mem x (ih n (by simpa using h))

theorem insertMerge_adds (t : Node) (e : FEntry) :
    existsName (insertMerge t e) e.name = true := by
  obtain ⟨en, ed, ek⟩ := e
  rw [show FEntry.name (FEntry.mk en ed ek) = en from rfl]
  rw [insertMerge]
  split
  next i hfi =>
    split
    next c hci =>
      obtain ⟨j, c2, hij, hcj, hpc⟩ := findIdx?_some_spec _ t.children 0 i hfi
      have hcc : c2 = c := by
        rw [show i = j from by omega] at hci
        rw [hci] at hcj
        exact (Option.some_inj.1 hcj).symm
      subst hcc
      rw [Bool.and_eq_true, beq_iff_eq] at hpc
      obtain ⟨td, tcs, th⟩ := t
      simp only [Node.children, Node.info, Node.hidden] at hci ⊢
      split
      next hdd =>
        rw [existsName_mk, filtermap_modList_info tcs i _ (fun x => mergeIntoNode_info ek x)]
        rw [contains_iff_mem, List.mem_append]
        left
        rw [List.mem_map]
        refine ⟨c2, List.mem_filter.2 ⟨List.getElem?_mem hci, hpc.1⟩, ?_⟩
        simp [Node.name, hpc.2]
      next hdd =>
        rw [existsName_mk, contains_iff_mem, List.mem_append]
        right
        rw [List.map_append, List.mem_append]
        right
        simp [FEntry.name]
    next hci => exact absurd hci (by
      obtain ⟨j, c2, hij, hcj, hpc⟩ := findIdx?_some_spec _ t.children 0 i hfi
      rw [show i = j from by omega]
      rw [hcj]
      simp)
  next hfi =>
    split
    next j hfj =>
      split
      next old hoj =>
        obtain ⟨j2, old2, hjj, hoj2, hpo⟩ := findIdx?_some_spec _ t.hidden 0 j hfj
        have hoo : old2 = old := by
          rw [show j = j2 from by omega] at hoj
          rw [hoj] at hoj2
          exact (Option.some_inj.1 hoj2).symm
        subst hoo
        rw [beq_iff_eq] at hpo
        obtain ⟨td, tcs, th⟩ := t
        simp only [Node.children, Node.info, Node.hidden] at hoj ⊢
        have hjlen : j < th.length := (List.getElem?_eq_some_iff.1 hoj).1
        split
        next hdd =>
          rw [existsName_mk, contains_iff_mem, List.mem_append]
          right
          rw [List.mem_map]
          refine ⟨mergeListFE old2 ek, mem_set_self th j _ hjlen, ?_⟩
          rw [(mergeListFE_parts ek old2).1, hpo]
        next hdd =>
          rw [existsName_mk, contains_iff_mem, List.mem_append]
          right
          rw [List.mem_map]
          exact ⟨FEntry.mk en ed ek, mem_set_self th j _ hjlen, rfl⟩
      next hoj =>
        obtain ⟨j2, old2, hjj, hoj2, hpo⟩ := findIdx?_some_spec _ t.hidden 0 j hfj
        exact absurd hoj (by
          rw [show j = j2 from by omega, hoj2]
          simp)
    next hfj =>
      obtain ⟨td, tcs, th⟩ := t
      simp only [Node.children, Node.info, Node.hidden]
      rw [existsName_mk, contains_iff_mem, List.mem_append]
      right
      rw [List.map_append, List.mem_append]
      right
      simp [FEntry.name]

theorem mergeIntoNode_preserves (es : List FEntry) (c : Node) (nm2 : String)
    (h : existsName c nm2 = true) : existsName (mergeIntoNode c es) nm2 = true := by
  induction es generalizing c with
  | nil => rw [mergeIntoNode]; exact h
  | cons e rest ih =>
    rw [mergeIntoNode]
    exact ih (insertMerge c e) (insertMerge_preserves c e nm2 h)

theorem mergeIntoNode_adds (es : List FEntry) (c : Node) :
    ∀ e2 ∈ es, existsName (mergeIntoNode c es) e2.name = true := by
  induction es generalizing c with
  | nil => intro e2 h2; simp at h2
  | cons e rest ih =>
    intro e2 h2
    rw [mergeIntoNode]
    rcases List.mem_cons.1 h2 with rfl | h2
    · exact mergeIntoNode_preserves rest (insertMerge c e2) e2.name (insertMerge_adds c e2)
    · exact ih (insertMerge c e) e2 h2

/-- C6: on a semantic move event the handler composes, in order:
`detachParents` of the source entry (when it was attached), the scan of
the target's widget children for a same-named entry (removing an
existing file, force-checking an existing directory), the `MERGE`
insert of the source entry into the target's authoritative collection,
and `attachParents` of the target.  The `MERGE` policy combines the
contents of an existing same-named directory with those of the source
(old names are preserved and every source child name is present
afterwards) instead of replacing it, and overwrites an existing
same-named file (its widget item is detached, the source entry takes
its place in the collection). -/
theorem C6_onItemMoved (root : Node) (src : FEntry) (srcAtt : Bool) (srcParent tgt : TPath)
    (t : Node) (h : nodeAt root tgt = some t) :
    onItemMoved root src srcAtt srcParent tgt =
      attachParents
        (modifyAt
          (movePrecheck (if srcAtt then detachEntryAt root srcParent src.name else root)
            tgt src.name)
          tgt (fun x => insertMerge x src)) tgt
    ∧ (∀ i c, src.isDir = true → findAttachedIdx t src.name = some i →
        t.children[i]? = some c → c.info.isDir = true →
        insertMerge t src =
          Node.mk t.info (modList t.children i (fun x => mergeIntoNode x src.children))
            t.hidden
        ∧ (∀ nm, existsName c nm = true →
            existsName (mergeIntoNode c src.children) nm = true)
        ∧ (∀ e2 ∈ src.children, existsName (mergeIntoNode c src.children) e2.name = true))
    ∧ (∀ i c, findAttachedIdx t src.name = some i → t.children[i]? = some c →
        c.info.isDir = false →
        insertMerge t src =
          Node.mk t.info (modList t.children i (fun x => x.setAttached false))
            (t.hidden ++ [src])) := by
  refine ⟨?_, ?_, ?_⟩
  · simp only [onItemMoved, h]
  · intro i c hd hfi hci hcd
    obtain ⟨en, ed, ek⟩ := src
    rw [show FEntry.isDir (FEntry.mk en ed ek) = ed from rfl] at hd
    rw [show FEntry.name (FEntry.mk en ed ek) = en from rfl] at hfi
    refine ⟨?_, ?_, ?_⟩
    · simp only [insertMerge, hfi, hci, hcd, hd, Bool.and_self, if_true, FEntry.children]
    · intro nm hnm
      exact mergeIntoNode_preserves _ c nm hnm
    · exact mergeIntoNode_adds _ c
  · intro i c hfi hci hcd
    obtain ⟨en, ed, ek⟩ := src
    rw [show FEntry.name (FEntry.mk en ed ek) = en from rfl] at hfi
    simp only [insertMerge, hfi, hci, hcd, Bool.false_and, Bool.false_eq_true, if_false]

def c6tgt : Node :=
  mkDirN "T" .checked true true true
    [mkDirN "D" .checked true true true [mkFileN "old" .checked true] []] []

def c6root : Node := mkRootN [c6tgt]

def c6src : FEntry := .mk "D" true [.mk "new" false []]

theorem C6_onItemMoved_witness :
    onItemMoved c6root c6src false [] [0] =
      attachParents
        (modifyAt
          (movePrecheck (if false then detachEntryAt c6root [] c6src.name else c6root)
            [0] c6src.name)
          [0] (fun x => insertMerge x c6src)) [0] :=
  (C6_onItemMoved c6root c6src false [] [0] c6tgt (by decide)).1

def c3bad : Node :=
  mkRootN [mkDirN "S" .checked true true true
    [mkDirN "T" .unchecked false false false [] [.mk "f" false []]] []]

/-- C3 is refuted: dropping `S` onto its own unpopulated, unchecked
descendant `T` fails the ancestor check and shows the warning, yet the
tree has been mutated — the pre-check populate step expanded `T` and,
because `T` is unchecked, cleared its authoritative collection (the
entry `f` is gone). -/
theorem C3_counterexample :
    (dropEvent c3bad [[0]] [0, 0]).2 = true
    ∧ (nodeAt c3bad [0, 0]).map collNames = some ["f"]
    ∧ (nodeAt (dropEvent c3bad [[0]] [0, 0]).1 [0, 0]).map collNames = some [] := by
  decide

/-- C3 amended: when the drop target is a directory and any selected
item fails the ancestor-cycle or name/type-conflict check, a warning is
shown and no item is moved — but the state returned is the tree after
the populate step on the target, not the original tree (populating an
unchecked target clears its collection, so the batch is not free of
mutation). -/
theorem C3_dropEvent_amended (root : Node) (sels : List TPath) (pos : TPath)
    (tN : Node) (h : nodeAt root pos = some tN) (hdir : tN.info.isDir = true)
    (hfail : sels.any
      (fun s => dropFails (modifyAt root pos (fun t => populate t false)) s pos) = true) :
    dropEvent root sels pos = (modifyAt root pos (fun t => populate t false), true) := by
  simp only [dropEvent, h, hdir, Bool.not_true, Bool.false_and, Bool.false_eq_true,
    if_false, Bool.if_false_left, hfail, if_true]

theorem C3_dropEvent_amended_witness :
    dropEvent c3bad [[0]] [0, 0] =
      (modifyAt c3bad [0, 0] (fun t => populate t false), true) :=
  C3_dropEvent_amended c3bad [[0]] [0, 0]
    (mkDirN "T" .unchecked false false false [] [.mk "f" false []])
    (by decide) (by decide) (by decide)

def c1start : Node :=
  mkRootN [mkDirN "T" .checked false false true [] [], mkFileN "S" .checked true]

/-- C1 is refuted by the program itself: uncheck the empty directory
`T` (leaving it detached and Unchecked, a consistent state), then drag
the checked file `S` onto `T`.  The move handler re-attaches `T` via
`attachParents(target)` but never re-checks it, so afterwards `T` is
attached to its parent's collection while its check state is still
Unchecked: checked and attached have diverged on `T`.  (The final
refresh of the unchecked target even clears its collection again, so
the moved file `S` ends up as an unchecked, detached child item and the
move is effectively lost.) -/
theorem C1_counterexample :
    ((nodeAt (userToggle c1start [0] .unchecked) [0]).map
      (fun n => (n.info.attached, checkStateOf n)) = some (false, .unchecked))
    ∧ ((nodeAt (dropEvent (userToggle c1start [0] .unchecked) [[1]] [0]).1 [0]).map
      (fun n => (n.info.attached, checkStateOf n)) = some (true, .unchecked))
    ∧ ((nodeAt (dropEvent (userToggle c1start [0] .unchecked) [[1]] [0]).1 [0]).map
      (fun n => (collNames n, n.children.map (fun c => (c.info.name, c.info.attached))))
      = some ([], [("S", false)])) := by
  decide

mutual
/-- The pure effect of the `setData` check-state cascade on a subtree:
store `v` at the node and, for a checkable directory item (and a
non-tristate value), recursively in all materialized children.  This is
the widget-state part of `ArchiveTreeWidgetItem::setData`; the lemma
below identifies it with the node component of `setDataRun`. -/
def storeAll : CheckState → Node → Node
  | v, .mk d cs h =>
    if d.isDir && d.checkable && !(v == .mixed) then
      .mk { d with checked := v } (storeAllList v cs) h
    else
      .mk { d with checked := v } cs h
def storeAllList : CheckState → List Node → List Node
  | _, [] => []
  | v, c :: cs => storeAll v c :: storeAllList v cs
end

mutual
theorem setDataRun_node (n : Node) (self : TPath) (v : CheckState) (em : Option TPath) :
    (setDataRun n self v em).1 = storeAll v n := by
  obtain ⟨d, cs, h⟩ := n
  rw [setDataRun, storeAll]
  by_cases hg : (d.isDir && d.checkable && !(v == CheckState.mixed)) = true
  · rw [if_pos hg, if_pos hg]
    rw [setDataChildren_nodes cs self 0 v _]
    split <;> split <;> rfl
  · rw [if_neg hg, if_neg hg]
    split <;> split <;> rfl
theorem setDataChildren_nodes (cs : List Node) (par : TPath) (i : Nat) (v : CheckState)
    (em : Option TPath) :
    (setDataChildren cs par i v em).1 = storeAllList v cs := by
  match cs with
  | [] => rw [setDataChildren, storeAllList]
  | c :: rest =>
    rw [setDataChildren, storeAllList]
    rw [setDataRun_node c (par ++ [i]) v em]
    rw [setDataChildren_nodes rest par (i + 1) v _]
end

theorem storeAllList_eq_map (v : CheckState) (l : List Node) :
    storeAllList v l = l.map (storeAll v) := by
  induction l with
  | nil => rfl
  | cons c rest ih => rw [storeAllList, List.map_cons, ih]

theorem storeAll_info (v : CheckState) (n : Node) :
    (storeAll v n).info = { n.info with checked := v } := by
  obtain ⟨d, cs, h⟩ := n
  rw [storeAll]
  split <;> rfl

theorem storeAll_hidden (v : CheckState) (n : Node) : (storeAll v n).hidden = n.hidden := by
  obtain ⟨d, cs, h⟩ := n
  rw [storeAll]
  split <;> rfl

theorem recursiveDetach_info (n : Node) : (recursiveDetach n).info = n.info := by
  obtain ⟨d, cs, h⟩ := n
  rw [recursiveDetach]
  split <;> rfl

theorem recursiveInsert_info (n : Node) : (recursiveInsert n).info = n.info := by
  obtain ⟨d, cs, h⟩ := n
  rw [recursiveInsert]
  split <;> rfl

theorem recursiveDetach_not_pop (n : Node) (h : n.info.populated = false) :
    recursiveDetach n = n := by
  obtain ⟨d, cs, hh⟩ := n
  rw [recursiveDetach]
  rw [show (Node.mk d cs hh).info = d from rfl] at h
  rw [h]
  simp

theorem recursiveInsert_not_pop (n : Node) (h : n.info.populated = false) :
    recursiveInsert n = n := by
  obtain ⟨d, cs, hh⟩ := n
  rw [recursiveInsert]
  rw [show (Node.mk d cs hh).info = d from rfl] at h
  rw [h]
  simp

mutual
theorem checkStateOf_storeAll (n : Node) (v : CheckState) (hv : (v == .mixed) = false) :
    checkStateOf (storeAll v n) = v := by
  obtain ⟨d, cs, h⟩ := n
  rw [storeAll]
  by_cases hg : (d.isDir && d.checkable && !(v == CheckState.mixed)) = true
  · rw [if_pos hg]
    rw [checkStateOf]
    by_cases hemp : (storeAllList v cs).isEmpty = true
    · simp only [hemp, Bool.not_true, Bool.and_false, Bool.false_eq_true, if_false]
    · rw [Bool.not_eq_true] at hemp
      have hgg : (({ d with checked := v } : NodeData).isDir
          && ({ d with checked := v } : NodeData).checkable
          && !(storeAllList v cs).isEmpty) = true := by
        rw [Bool.and_eq_true, Bool.and_eq_true] at hg ⊢
        refine ⟨⟨hg.1.1, hg.1.2⟩, ?_⟩
        rw [hemp]
        rfl
      rw [if_pos hgg]
      have hall : ∀ st ∈ checkStateList (storeAllList v cs), st = v :=
        checkStateList_storeAllList cs v hv
      rw [childrenCheckState]
      cases v with
      | mixed => simp at hv
      | checked =>
        have hall2 : (checkStateList (storeAllList CheckState.checked cs)).all
            (· == CheckState.checked) = true := by
          rw [List.all_eq_true]
          intro st hst
          rw [hall st hst]
          rfl
        rw [hall2]
        simp
      | unchecked =>
        have hull : (checkStateList (storeAllList CheckState.unchecked cs)).all
            (· == CheckState.unchecked) = true := by
          rw [List.all_eq_true]
          intro st hst
          rw [hall st hst]
          rfl
        have h1 : (checkStateList (storeAllList CheckState.unchecked cs)).all
            (· == CheckState.checked) = false := by
          rw [Bool.eq_false_iff]
          intro hcon
          rw [List.all_eq_true] at hcon
          cases hcs : storeAllList CheckState.unchecked cs with
          | nil => rw [hcs] at hemp; simp at hemp
          | cons x xs =>
            have hx : checkStateOf x ∈ checkStateList (storeAllList CheckState.unchecked cs) := by
              rw [hcs, checkStateList]
              exact List.mem_cons_self _ _
            have hc2 := hcon _ hx
            rw [hall _ hx] at hc2
            simp at hc2
        rw [h1, hull]
        simp
  · rw [if_neg hg]
    rw [checkStateOf]
    have hcond : ¬((({ d with checked := v } : NodeData).isDir
        && ({ d with checked := v } : NodeData).checkable && !cs.isEmpty) = true) := by
      intro hcon
      rw [Bool.and_eq_true, Bool.and_eq_true] at hcon
      apply hg
      rw [Bool.and_eq_true, Bool.and_eq_true]
      refine ⟨⟨hcon.1.1, hcon.1.2⟩, ?_⟩
      rw [Bool.not_eq_true']
      rw [Bool.eq_false_iff]
      intro hmix
      rw [beq_iff_eq] at hmix
      rw [hmix] at hv
      simp at hv
    rw [if_neg hcond]
theorem checkStateList_storeAllList (cs : List Node) (v : CheckState)
    (hv : (v == .mixed) = false) :
    ∀ st ∈ checkStateList (storeAllList v cs), st = v := by
  match cs with
  | [] =>
    intro st hst
    rw [storeAllList, checkStateList] at hst
    simp at hst
  | c :: rest =>
    intro st hst
    rw [storeAllList, checkStateList] at hst
    rcases List.mem_cons.1 hst with rfl | hst2
    · exact checkStateOf_storeAll c v hv
    · exact checkStateList_storeAllList rest v hv st hst2
end

/-- No string occurs twice in the list. -/
def namesNodup : List String → Bool
  | [] => true
  | s :: rest => !(rest.contains s) && namesNodup rest

mutual
/-- The fully-consistent subtree states of the round-trip property: the
item is checkable, stored Checked, attached, only directories are
populated; a populated item has no collection entry without a widget
item and its children have pairwise distinct names; an unpopulated item
has no child items. -/
def goodSub : Node → Bool
  | .mk d cs h =>
    d.checkable && (d.checked == .checked) && d.attached && (!d.populated || d.isDir)
      && (if d.populated then h.isEmpty && namesNodup (cs.map Node.name) && goodSubList cs
          else cs.isEmpty)
def goodSubList : List Node → Bool
  | [] => true
  | c :: cs => goodSub c && goodSubList cs
end

theorem goodSub_spec (c : Node) (hg : goodSub c = true) :
    c.info.checkable = true ∧ c.info.checked = .checked ∧ c.info.attached = true
    ∧ (c.info.populated = true → c.info.isDir = true)
    ∧ (c.info.populated = false → c.children = []) := by
  obtain ⟨d, cs, h⟩ := c
  rw [goodSub] at hg
  rw [Bool.and_eq_true, Bool.and_eq_true, Bool.and_eq_true, Bool.and_eq_true] at hg
  obtain ⟨⟨⟨⟨hck, hst⟩, hat⟩, hpd⟩, hif⟩ := hg
  rw [beq_iff_eq] at hst
  refine ⟨hck, hst, hat, ?_, ?_⟩
  · intro hpp
    rw [show (Node.mk d cs h).info = d from rfl] at hpp
    rw [hpp] at hpd
    simpa using hpd
  · intro hpp
    rw [show (Node.mk d cs h).info = d from rfl] at hpp
    rw [hpp, if_neg (by simp)] at hif
    rw [show (Node.mk d cs h).children = cs from rfl]
    exact List.isEmpty_iff.1 hif

theorem setAttached_info (n : Node) (b : Bool) :
    (n.setAttached b).info = { n.info with attached := b } := by
  obtain ⟨d, cs, h⟩ := n
  rfl

theorem storeAll_mk_nil (v : CheckState) (d : NodeData) (h : List FEntry) :
    storeAll v (.mk d [] h) = .mk { d with checked := v } [] h := by
  rw [storeAll]
  split <;> rfl

theorem attachedNames_nil_of (l : List Node) (h : ∀ x ∈ l, x.info.attached = false) :
    attachedNames l = [] := by
  induction l with
  | nil => rfl
  | cons a rest ih =>
    rw [attachedNames, List.filter_cons]
    rw [h a (List.mem_cons_self a rest)]
    rw [if_neg (by simp)]
    exact ih (fun x hx => h x (List.mem_cons_of_mem a hx))

theorem attachedNames_append (a b : List Node) :
    attachedNames (a ++ b) = attachedNames a ++ attachedNames b := by
  rw [attachedNames, attachedNames, attachedNames, List.filter_append, List.map_append]

theorem attachedNames_detached_pipe (L : List Node) :
    attachedNames (storeAllList .checked (L.map (fun x => Node.setAttached x false))) = [] := by
  apply attachedNames_nil_of
  intro x hx
  rw [storeAllList_eq_map] at hx
  obtain ⟨y, hy, rfl⟩ := List.mem_map.1 hx
  obtain ⟨z, hz, rfl⟩ := List.mem_map.1 hy
  rw [storeAll_info, setAttached_info]

theorem recInsGo_cons (hid : List String) (acc : List Node) (y : Node) (ys : List Node) :
    recInsGo hid acc (y :: ys) =
      recInsGo hid
        (acc ++ [if !y.info.attached
              && ((attachedNames acc ++ attachedNames ys ++ hid).contains y.info.name) then
            (if y.info.isDir then recursiveInsert y else y)
          else (if y.info.isDir then recursiveInsert y else y).setAttached true])
        ys := by
  rw [recInsGo]

mutual
theorem roundTrip_node (c : Node) (hg : goodSub c = true) :
    Node.setAttached
      (recursiveInsert (storeAll .checked
        (Node.setAttached (recursiveDetach (storeAll .unchecked c)) false))) true = c := by
  obtain ⟨d, cs, h⟩ := c
  obtain ⟨nm, di, ck, st, pp, ex, att⟩ := d
  rw [goodSub] at hg
  rw [Bool.and_eq_true, Bool.and_eq_true, Bool.and_eq_true, Bool.and_eq_true] at hg
  obtain ⟨⟨⟨⟨hck, hst⟩, hat⟩, hpd⟩, hif⟩ := hg
  simp only [] at hck hst hat hpd hif
  rw [beq_iff_eq] at hst
  subst hck
  subst hst
  subst hat
  cases pp with
  | false =>
    rw [if_neg (by simp)] at hif
    have hcs : cs = [] := List.isEmpty_iff.1 hif
    subst hcs
    rw [storeAll_mk_nil]
    rw [recursiveDetach_not_pop _ (by rfl)]
    rw [show Node.setAttached
        (Node.mk { name := nm, isDir := di, checkable := true, checked := CheckState.unchecked,
                   populated := false, expanded := ex, attached := true } [] h) false
      = Node.mk { name := nm, isDir := di, checkable := true, checked := CheckState.unchecked,
                   populated := false, expanded := ex, attached := false } [] h from rfl]
    rw [storeAll_mk_nil]
    rw [recursiveInsert_not_pop _ (by rfl)]
    rfl
  | true =>
    have hdi : di = true := by simpa using hpd
    subst hdi
    rw [if_pos rfl] at hif
    rw [Bool.and_eq_true, Bool.and_eq_true] at hif
    obtain ⟨⟨hhe, hnd⟩, hgl⟩ := hif
    have hh : h = [] := List.isEmpty_iff.1 hhe
    subst hh
    have hA : storeAll CheckState.unchecked
        (Node.mk { name := nm, isDir := true, checkable := true, checked := CheckState.checked,
                   populated := true, expanded := ex, attached := true } cs [])
      = Node.mk { name := nm, isDir := true, checkable := true, checked := CheckState.unchecked,
                   populated := true, expanded := ex, attached := true }
          (storeAllList CheckState.unchecked cs) [] := by
      rw [storeAll]
      rw [if_pos (by rfl)]
    rw [hA]
    have hB : recursiveDetach
        (Node.mk { name := nm, isDir := true, checkable := true, checked := CheckState.unchecked,
                   populated := true, expanded := ex, attached := true }
          (storeAllList CheckState.unchecked cs) [])
      = Node.mk { name := nm, isDir := true, checkable := true, checked := CheckState.unchecked,
                   populated := true, expanded := ex, attached := true }
          ((recDetGo (storeAllList CheckState.unchecked cs)).map (fun x => x.setAttached false))
          [] := by
      rw [recursiveDetach]
      rw [if_pos (by rfl)]
      rfl
    rw [hB]
    rw [show Node.setAttached
        (Node.mk { name := nm, isDir := true, checkable := true, checked := CheckState.unchecked,
                   populated := true, expanded := ex, attached := true }
          ((recDetGo (storeAllList CheckState.unchecked cs)).map (fun x => x.setAttached false))
          []) false
      = Node.mk { name := nm, isDir := true, checkable := true, checked := CheckState.unchecked,
                   populated := true, expanded := ex, attached := false }
          ((recDetGo (storeAllList CheckState.unchecked cs)).map (fun x => x.setAttached false))
          [] from rfl]
    have hC : storeAll CheckState.checked
        (Node.mk { name := nm, isDir := true, checkable := true, checked := CheckState.unchecked,
                   populated := true, expanded := ex, attached := false }
          ((recDetGo (storeAllList CheckState.unchecked cs)).map (fun x => x.setAttached false))
          [])
      = Node.mk { name := nm, isDir := true, checkable := true, checked := CheckState.checked,
                   populated := true, expanded := ex, attached := false }
          (storeAllList CheckState.checked
            ((recDetGo (storeAllList CheckState.unchecked cs)).map (fun x => x.setAttached false)))
          [] := by
      rw [storeAll]
      rw [if_pos (by rfl)]
    rw [hC]
    have hD : recursiveInsert
        (Node.mk { name := nm, isDir := true, checkable := true, checked := CheckState.checked,
                   populated := true, expanded := ex, attached := false }
          (storeAllList CheckState.checked
            ((recDetGo (storeAllList CheckState.unchecked cs)).map (fun x => x.setAttached false)))
          [])
      = Node.mk { name := nm, isDir := true, checkable := true, checked := CheckState.checked,
                   populated := true, expanded := ex, attached := false }
          (recInsGo [] []
            (storeAllList CheckState.checked
              ((recDetGo (storeAllList CheckState.unchecked cs)).map
                (fun x => x.setAttached false))))
          [] := by
      rw [recursiveInsert]
      rw [if_pos (by rfl)]
      rfl
    rw [hD]
    rw [roundTrip_list cs [] hgl hnd (fun nm2 _ => by rfl)]
    rfl
theorem roundTrip_list (cs : List Node) (acc : List Node) (hg : goodSubList cs = true)
    (hnd : namesNodup (cs.map Node.name) = true)
    (hacc : ∀ nm2, ((cs.map Node.name).contains nm2) = true →
      (attachedNames acc).contains nm2 = false) :
    recInsGo [] acc (storeAllList .checked
      ((recDetGo (storeAllList .unchecked cs)).map (fun x => Node.setAttached x false)))
      = acc ++ cs := by
  match cs with
  | [] =>
    rw [show storeAllList CheckState.unchecked [] = [] from rfl]
    rw [show recDetGo [] = [] from rfl]
    rw [List.map_nil]
    rw [show storeAllList CheckState.checked [] = [] from rfl]
    rw [recInsGo]
    simp
  | c :: rest =>
    rw [goodSubList, Bool.and_eq_true] at hg
    obtain ⟨hgc, hgrest⟩ := hg
    rw [List.map_cons, namesNodup, Bool.and_eq_true] at hnd
    obtain ⟨hndh, hndrest⟩ := hnd
    rw [show storeAllList CheckState.unchecked (c :: rest)
      = storeAll CheckState.unchecked c :: storeAllList CheckState.unchecked rest from rfl]
    rw [show recDetGo (storeAll CheckState.unchecked c :: storeAllList CheckState.unchecked rest)
      = (if (storeAll CheckState.unchecked c).info.isDir then
          recursiveDetach (storeAll CheckState.unchecked c)
         else storeAll CheckState.unchecked c)
        :: recDetGo (storeAllList CheckState.unchecked rest) from rfl]
    have hdet : (if (storeAll CheckState.unchecked c).info.isDir then
          recursiveDetach (storeAll CheckState.unchecked c)
        else storeAll CheckState.unchecked c)
        = recursiveDetach (storeAll CheckState.unchecked c) := by
      by_cases hdi : c.info.isDir = true
      · rw [if_pos (by rw [storeAll_info]; exact hdi)]
      · rw [Bool.not_eq_true] at hdi
        rw [if_neg (by rw [storeAll_info]; simp [hdi])]
        have hpp : c.info.populated = false := by
          rcases hb : c.info.populated with _ | _
          · rfl
          · exact absurd ((goodSub_spec c hgc).2.2.2.1 hb) (by simp [hdi])
        rw [recursiveDetach_not_pop _ (by rw [storeAll_info]; exact hpp)]
    rw [hdet]
    rw [List.map_cons]
    rw [show storeAllList CheckState.checked
        (Node.setAttached (recursiveDetach (storeAll CheckState.unchecked c)) false
          :: (recDetGo (storeAllList CheckState.unchecked rest)).map
              (fun x => Node.setAttached x false))
      = storeAll CheckState.checked
          (Node.setAttached (recursiveDetach (storeAll CheckState.unchecked c)) false)
        :: storeAllList CheckState.checked
            ((recDetGo (storeAllList CheckState.unchecked rest)).map
              (fun x => Node.setAttached x false)) from rfl]
    rw [recInsGo_cons]
    have hyinfo : (storeAll CheckState.checked
        (Node.setAttached (recursiveDetach (storeAll CheckState.unchecked c)) false)).info
        = { c.info with checked := CheckState.checked, attached := false } := by
      rw [storeAll_info, setAttached_info, recursiveDetach_info, storeAll_info]
    have hattf : (storeAll CheckState.checked
        (Node.setAttached (recursiveDetach (storeAll CheckState.unchecked c)) false)).info.attached
        = false := by
      rw [hyinfo]
    have hcont : ((attachedNames acc
          ++ attachedNames (storeAllList CheckState.checked
              ((recDetGo (storeAllList CheckState.unchecked rest)).map
                (fun x => Node.setAttached x false)))
          ++ ([] : List String)).contains
        (storeAll CheckState.checked
          (Node.setAttached (recursiveDetach (storeAll CheckState.unchecked c)) false)).info.name)
        = false := by
      rw [attachedNames_detached_pipe]
      rw [List.append_nil, List.append_nil]
      rw [hyinfo]
      exact hacc c.info.name ((contains_iff_mem _ _).2
        (by rw [List.map_cons]; exact List.mem_cons_self _ _))
    rw [hattf, hcont]
    rw [show ((!false) && false) = false from rfl]
    rw [if_neg (by simp)]
    have hdeep : (if (storeAll CheckState.checked
          (Node.setAttached (recursiveDetach (storeAll CheckState.unchecked c)) false)).info.isDir
        then recursiveInsert (storeAll CheckState.checked
          (Node.setAttached (recursiveDetach (storeAll CheckState.unchecked c)) false))
        else storeAll CheckState.checked
          (Node.setAttached (recursiveDetach (storeAll CheckState.unchecked c)) false))
        = recursiveInsert (storeAll CheckState.checked
            (Node.setAttached (recursiveDetach (storeAll CheckState.unchecked c)) false)) := by
      by_cases hdi : c.info.isDir = true
      · rw [if_pos (by rw [hyinfo]; exact hdi)]
      · rw [Bool.not_eq_true] at hdi
        rw [if_neg (by rw [hyinfo]; simp [hdi])]
        have hpp : c.info.populated = false := by
          rcases hb : c.info.populated with _ | _
          · rfl
          · exact absurd ((goodSub_spec c hgc).2.2.2.1 hb) (by simp [hdi])
        rw [recursiveInsert_not_pop _ (by rw [hyinfo]; exact hpp)]
    rw [hdeep]
    rw [roundTrip_node c hgc]
    have hattc : c.info.attached = true := (goodSub_spec c hgc).2.2.1
    have hnc : ((rest.map Node.name).contains (Node.name c)) = false := by
      cases hcc : (rest.map Node.name).contains (Node.name c) with
      | false => rfl
      | true => rw [hcc] at hndh; simp at hndh
    have hacc2 : ∀ nm2, ((rest.map Node.name).contains nm2) = true →
        (attachedNames (acc ++ [c])).contains nm2 = false := by
      intro nm2 hmem
      rw [attachedNames_append]
      have hc1 : attachedNames [c] = [Node.name c] := by
        rw [attachedNames, List.filter_cons, hattc]
        rfl
      rw [hc1]
      rw [Bool.eq_false_iff]
      intro hcon
      rw [contains_iff_mem] at hcon
      rcases List.mem_append.1 hcon with hL | hR
      · have h1 := hacc nm2 (by
          rw [List.map_cons]
          rw [contains_iff_mem] at hmem ⊢
          exact List.mem_cons_of_mem _ hmem)
        rw [Bool.eq_false_iff] at h1
        exact h1 ((contains_iff_mem _ _).2 hL)
      · have hnm : nm2 = Node.name c := List.mem_singleton.1 hR
        rw [hnm] at hmem
        rw [hnc] at hmem
        exact absurd hmem (by simp)
    rw [roundTrip_list rest (acc ++ [c]) hgrest hndrest hacc2]
    simp
end

theorem modList_modList {α : Type} (cs : List α) (i : Nat) (f g : α → α) :
    modList (modList cs i f) i g = modList cs i (fun x => g (f x)) := by
  induction cs generalizing i with
  | nil => cases i <;> rfl
  | cons c rest ih =>
    cases i with
    | zero => rw [modList, modList, modList]
    | succ i2 => rw [modList, modList, modList, ih i2]

mutual
theorem modifyAt_congr (root : Node) (p : TPath) (f g : Node → Node)
    (h : ∀ x, f x = g x) : modifyAt root p f = modifyAt root p g := by
  match root, p with
  | n, [] => rw [modifyAt, modifyAt, h n]
  | .mk d cs hh, i :: p2 =>
    rw [modifyAt, modifyAt]
    rw [modifyAtList_congr cs i p2 f g h]
theorem modifyAtList_congr (cs : List Node) (i : Nat) (p : TPath) (f g : Node → Node)
    (h : ∀ x, f x = g x) : modifyAtList cs i p f = modifyAtList cs i p g := by
  match cs, i with
  | [], _ => rw [modifyAtList, modifyAtList]
  | c :: rest, 0 =>
    rw [modifyAtList, modifyAtList]
    rw [modifyAt_congr c p f g h]
  | c :: rest, j + 1 =>
    rw [modifyAtList, modifyAtList]
    rw [modifyAtList_congr rest j p f g h]
end

mutual
theorem modifyAt_modifyAt (root : Node) (p : TPath) (f g : Node → Node) :
    modifyAt (modifyAt root p f) p g = modifyAt root p (fun x => g (f x)) := by
  match root, p with
  | n, [] => rw [modifyAt, modifyAt, modifyAt]
  | .mk d cs hh, i :: p2 =>
    rw [modifyAt, modifyAt, modifyAt]
    rw [modifyAtList_modifyAtList cs i p2 f g]
theorem modifyAtList_modifyAtList (cs : List Node) (i : Nat) (p : TPath) (f g : Node → Node) :
    modifyAtList (modifyAtList cs i p f) i p g = modifyAtList cs i p (fun x => g (f x)) := by
  match cs, i with
  | [], _ => rw [modifyAtList, modifyAtList, modifyAtList]
  | c :: rest, 0 =>
    rw [modifyAtList, modifyAtList, modifyAtList]
    rw [modifyAt_modifyAt c p f g]
  | c :: rest, j + 1 =>
    rw [modifyAtList, modifyAtList, modifyAtList]
    rw [modifyAtList_modifyAtList rest j p f g]
end

theorem modifyAt_append (root : Node) (q r : TPath) (f : Node → Node) :
    modifyAt root (q ++ r) f = modifyAt root q (fun m => modifyAt m r f) := by
  induction q generalizing root with
  | nil =>
    rw [List.nil_append, modifyAt]
  | cons i q2 ih =>
    obtain ⟨d, cs, h⟩ := root
    rw [show (i :: q2) ++ r = i :: (q2 ++ r) from rfl]
    rw [modifyAt, modifyAt]
    rw [modifyAtList_eq_modList, modifyAtList_eq_modList]
    exact congrArg (fun l => Node.mk d l h) (modList_congr cs i _ _ (fun c _ => ih c))

theorem modifyAt_single (m : Node) (j : Nat) (f : Node → Node) :
    modifyAt m [j] f = Node.mk m.info (modList m.children j f) m.hidden := by
  obtain ⟨d, cs, h⟩ := m
  rw [modifyAt, modifyAtList_eq_modList]
  rw [modList_congr cs j _ f (fun c _ => by rw [modifyAt])]
  rfl

theorem modList_id_of {α : Type} (cs : List α) (j : Nat) (f : α → α) (c : α)
    (hc : cs[j]? = some c) (hf : f c = c) : modList cs j f = cs := by
  induction cs generalizing j with
  | nil => cases j <;> rfl
  | cons x rest ih =>
    cases j with
    | zero =>
      rw [modList]
      simp only [List.getElem?_cons_zero, Option.some_inj] at hc
      rw [hc, hf]
    | succ j2 =>
      rw [modList]
      simp only [List.getElem?_cons_succ] at hc
      rw [ih j2 hc]

theorem filter_att_modList_unatt (cs : List Node) (j : Nat) (f : Node → Node)
    (hf : ∀ x, (f x).info.attached = false) :
    (modList cs j f).filter (fun c => c.info.attached)
      = (cs.eraseIdx j).filter (fun c => c.info.attached) := by
  induction cs generalizing j with
  | nil => cases j <;> rfl
  | cons x rest ih =>
    cases j with
    | zero =>
      rw [modList, List.eraseIdx_cons_zero, List.filter_cons]
      rw [hf x]
      rw [if_neg (by simp)]
    | succ j2 =>
      rw [modList, List.eraseIdx_cons_succ, List.filter_cons, List.filter_cons]
      rw [ih j2]

theorem detachParents_concat (root : Node) (q : TPath) (j : Nat) :
    detachParents root (q ++ [j]) =
      match nodeAt root (q ++ [j]) with
      | none => root
      | some n =>
        if n.info.attached then
          pruneUpRev (modifyAt root (q ++ [j]) (fun x => x.setAttached false)) q.reverse
        else modifyAt root (q ++ [j]) (fun x => x.setAttached false) := by
  have hdl : (q ++ [j]).dropLast = q := by
    rw [List.dropLast_concat]
  cases q with
  | nil => rfl
  | cons i q2 =>
    rw [show (i :: q2) ++ [j] = i :: (q2 ++ [j]) from rfl]
    rw [detachParents]
    rw [show (i :: (q2 ++ [j])).dropLast = ((i :: q2) ++ [j]).dropLast from rfl, hdl]

theorem isPrefixOf_concat_self_false (q : TPath) (j : Nat) :
    ((q ++ [j]).isPrefixOf q) = false := by
  rcases hb : (q ++ [j]).isPrefixOf q with _ | _
  · rfl
  · obtain ⟨t, ht⟩ := (isPrefixOf_iff _ _).1 hb
    have hlen := congrArg List.length ht
    simp at hlen

theorem userToggle_eq (root : Node) (p : TPath) (v : CheckState) (D : Node)
    (hD : nodeAt root p = some D) :
    userToggle root p v
      = onTreeCheckStateChanged (modifyAt root p (fun _ => storeAll v D)) p := by
  rw [userToggle]
  simp only [treeSetCheckState, hD]
  rw [setDataRun_node D p v none]
  rw [(setDataRun_outer D p v).2]
  rw [show List.foldl (fun st q => onTreeCheckStateChanged st q)
      (modifyAt root p (fun x => storeAll v D)) [p]
    = onTreeCheckStateChanged (modifyAt root p (fun x => storeAll v D)) p from rfl]

theorem drop_len_append (q s : TPath) : (q ++ s).drop q.length = s := by
  induction q with
  | nil => rfl
  | cons i q2 ih =>
    rw [show (i :: q2) ++ s = i :: (q2 ++ s) from rfl]
    rw [List.length_cons, List.drop_succ_cons]
    exact ih

theorem node_eta (n : Node) : Node.mk n.info n.children n.hidden = n := by
  obtain ⟨d, cs, h⟩ := n
  rfl

theorem setAttached_setAttached (n : Node) (a b : Bool) :
    (n.setAttached a).setAttached b = n.setAttached b := by
  obtain ⟨d, cs, h⟩ := n
  rfl

theorem setAttached_id_of (n : Node) (b : Bool) (h : n.info.attached = b) :
    n.setAttached b = n := by
  obtain ⟨d, cs, hh⟩ := n
  obtain ⟨nm, di, ck, st, pp, ex, att⟩ := d
  have h2 : att = b := h
  rw [← h2]
  rfl

theorem setAttached_modifyAt_cons (m : Node) (a : Nat) (s : TPath) (f : Node → Node)
    (b : Bool) :
    (modifyAt m (a :: s) f).setAttached b = modifyAt (m.setAttached b) (a :: s) f := by
  obtain ⟨d, cs, h⟩ := m
  rfl

theorem modifyAt_absorb (X : Node) (s s2 : TPath) (f1 f2 : Node → Node) :
    modifyAt (modifyAt X s f1) (s ++ s2) f2
      = modifyAt X s (fun m => modifyAt (f1 m) s2 f2) := by
  rw [modifyAt_append, modifyAt_modifyAt]

theorem nodeAt_rev_cons (root : Node) (i : Nat) (rest : TPath) :
    nodeAt root ((i :: rest).reverse)
      = (nodeAt root rest.reverse).bind (fun par => par.children[i]?) := by
  rw [show (i :: rest).reverse = rest.reverse ++ [i] from by simp]
  rw [nodeAt_append]
  cases nodeAt root rest.reverse with
  | none => rfl
  | some par => simp [nodeAt_single]

/-- The tree with the `t` deepest ancestors of the walked (reversed)
chain `rq` detached: the normal form of what the pruning loop of
`detachParents` produces (which ancestors it actually detaches depends
on the collections it finds, abstracted here by `t`). -/
def detachTopRev (root : Node) : TPath → Nat → Node
  | _, 0 => root
  | [], _ => root
  | i :: rest, t + 1 =>
    modifyAt (detachTopRev root rest t) ((i :: rest).reverse) (fun x => x.setAttached false)

/-- Along the (reversed) chain `rq`, no node shares its name with
another entry of its parent's authoritative collection — the unique
collection names invariant of `IFileTree`, restricted to the chain.
It is what makes the `FAIL_IF_EXISTS` re-insert of `attachParents`
re-attach the chain instead of being blocked by a same-named entry. -/
def chainNamesFreeRev (root : Node) : TPath → Bool
  | [] => true
  | i :: rest =>
    (match nodeAt root rest.reverse, nodeAt root ((i :: rest).reverse) with
     | some par, some ch =>
       !((((par.children.eraseIdx i).filter (fun c => c.info.attached)).map Node.name
           ++ par.hidden.map FEntry.name).contains ch.info.name)
     | _, _ => false) && chainNamesFreeRev root rest

theorem detachTopRev_nil (root : Node) (t : Nat) : detachTopRev root [] t = root := by
  cases t <;> rfl

theorem detachTopRev_zero (root : Node) (rq : TPath) : detachTopRev root rq 0 = root := by
  cases rq <;> rfl

theorem detachTopRev_read_below (root : Node) (rq : TPath) (t : Nat) (a : Nat)
    (s2 : TPath) :
    nodeAt (detachTopRev root rq t) (rq.reverse ++ a :: s2)
      = nodeAt root (rq.reverse ++ a :: s2) := by
  induction rq generalizing t a s2 with
  | nil => rw [detachTopRev_nil]
  | cons i rest ih =>
    cases t with
    | zero => rfl
    | succ t2 =>
      rw [show detachTopRev root (i :: rest) (t2 + 1)
        = modifyAt (detachTopRev root rest t2) ((i :: rest).reverse)
            (fun x => x.setAttached false) from rfl]
      rw [nodeAt_modifyAt, isPrefixOf_append_self]
      rw [if_pos rfl]
      rw [drop_len_append]
      have hfull : nodeAt (detachTopRev root rest t2) ((i :: rest).reverse ++ a :: s2)
          = nodeAt root ((i :: rest).reverse ++ a :: s2) := by
        rw [show (i :: rest).reverse ++ a :: s2 = rest.reverse ++ i :: a :: s2 from by simp]
        exact ih t2 i (a :: s2)
      rw [← hfull]
      rw [nodeAt_append (detachTopRev root rest t2) ((i :: rest).reverse) (a :: s2)]
      cases hn : nodeAt (detachTopRev root rest t2) ((i :: rest).reverse) with
      | none => rfl
      | some m =>
        simp only [Option.some_bind]
        exact nodeAt_setAttached_cons m false a s2

theorem detachTopRev_read_self (root : Node) (rq : TPath) (t : Nat) (n0 : Node)
    (h : nodeAt root rq.reverse = some n0) :
    ∃ m, nodeAt (detachTopRev root rq t) rq.reverse = some m
      ∧ m.children = n0.children ∧ m.hidden = n0.hidden := by
  cases rq with
  | nil =>
    refine ⟨n0, ?_, rfl, rfl⟩
    rw [detachTopRev_nil]
    exact h
  | cons i rest =>
    cases t with
    | zero => exact ⟨n0, h, rfl, rfl⟩
    | succ t2 =>
      rw [show detachTopRev root (i :: rest) (t2 + 1)
        = modifyAt (detachTopRev root rest t2) ((i :: rest).reverse)
            (fun x => x.setAttached false) from rfl]
      have hWr : nodeAt (detachTopRev root rest t2) ((i :: rest).reverse)
          = nodeAt root ((i :: rest).reverse) := by
        rw [show (i :: rest).reverse = rest.reverse ++ i :: ([] : TPath) from by simp]
        exact detachTopRev_read_below root rest t2 i []
      refine ⟨n0.setAttached false, ?_, (setAttached_parts n0 false).1,
        (setAttached_parts n0 false).2.1⟩
      rw [nodeAt_modifyAt_self, hWr, h, Option.map_some']

theorem pruneUpRev_detachTop (root : Node) (rq : TPath) :
    ∀ (inext : Nat) (g : Node → Node), (∀ x, (g x).info.attached = false) →
    ∃ t, pruneUpRev (modifyAt root (rq.reverse ++ [inext]) g) rq
      = modifyAt (detachTopRev root rq t) (rq.reverse ++ [inext]) g := by
  induction rq with
  | nil =>
    intro inext g hg
    exact ⟨0, rfl⟩
  | cons i rest ih =>
    intro inext g hg
    cases hn : nodeAt root ((i :: rest).reverse) with
    | none =>
      refine ⟨0, ?_⟩
      have hread : nodeAt (modifyAt root ((i :: rest).reverse ++ [inext]) g)
          ((i :: rest).reverse) = none := by
        rw [modifyAt_append, nodeAt_modifyAt_self, hn, Option.map_none']
      rw [pruneUpRev]
      simp only [hread]
      rfl
    | some n0 =>
      have hread : nodeAt (modifyAt root ((i :: rest).reverse ++ [inext]) g)
          ((i :: rest).reverse) = some (modifyAt n0 [inext] g) := by
        rw [modifyAt_append, nodeAt_modifyAt_self, hn, Option.map_some']
      by_cases hcol : collEmpty (modifyAt n0 [inext] g) = true
      · have hroot1 : modifyAt (modifyAt root ((i :: rest).reverse ++ [inext]) g)
            ((i :: rest).reverse) (fun x => x.setAttached false)
            = modifyAt root ((i :: rest).reverse)
                (fun m => modifyAt (m.setAttached false) [inext] g) := by
          rw [modifyAt_append, modifyAt_modifyAt]
          exact modifyAt_congr root ((i :: rest).reverse) _ _
            (fun m => setAttached_modifyAt_cons m inext [] g false)
        by_cases hatt : (modifyAt n0 [inext] g).info.attached = true
        · obtain ⟨t2, hIH⟩ := ih i
            (fun m => modifyAt (m.setAttached false) [inext] g)
            (fun x => by
              show (modifyAt (x.setAttached false) [inext] g).info.attached = false
              rw [modifyAt_cons_shape]
              exact (setAttached_parts x false).2.2.2)
          refine ⟨t2 + 1, ?_⟩
          rw [pruneUpRev]
          simp only [hread, hcol, if_true, hatt]
          rw [show modifyAt (modifyAt root ((i :: rest).reverse ++ [inext]) g)
              ((i :: rest).reverse) (fun x => x.setAttached false)
            = modifyAt root (rest.reverse ++ [i])
                (fun m => modifyAt (m.setAttached false) [inext] g) from by
            rw [hroot1]
            rw [show (i :: rest).reverse = rest.reverse ++ [i] from by simp]]
          rw [hIH]
          rw [show detachTopRev root (i :: rest) (t2 + 1)
            = modifyAt (detachTopRev root rest t2) ((i :: rest).reverse)
                (fun x => x.setAttached false) from rfl]
          rw [show (i :: rest).reverse = rest.reverse ++ [i] from by simp]
          rw [modifyAt_absorb]
        · have hattf : (modifyAt n0 [inext] g).info.attached = false := by
            cases hb : (modifyAt n0 [inext] g).info.attached with
            | false => rfl
            | true => exact absurd hb hatt
          refine ⟨1, ?_⟩
          rw [pruneUpRev]
          simp only [hread, hcol, if_true, hattf, Bool.false_eq_true, if_false]
          rw [hroot1]
          rw [show detachTopRev root (i :: rest) 1
            = modifyAt (detachTopRev root rest 0) ((i :: rest).reverse)
                (fun x => x.setAttached false) from rfl]
          rw [detachTopRev_zero]
          rw [modifyAt_absorb]
      · have hcolf : collEmpty (modifyAt n0 [inext] g) = false := by
          cases hb : collEmpty (modifyAt n0 [inext] g) with
          | false => rfl
          | true => exact absurd hb hcol
        refine ⟨0, ?_⟩
        rw [pruneUpRev]
        simp only [hread, hcolf, Bool.false_eq_true, if_false]
        rfl

theorem attachParentsRev_detachTop (root : Node) (rq : TPath) :
    ∀ (t : Nat), chainAttachedRev root rq = true → chainNamesFreeRev root rq = true →
    attachParentsRev (detachTopRev root rq t) rq = root := by
  induction rq with
  | nil =>
    intro t _ _
    rw [detachTopRev_nil]
    rfl
  | cons i rest ih =>
    intro t hA hN
    cases t with
    | zero => exact attachParentsRev_chain_id root (i :: rest) hA
    | succ t2 =>
      rw [chainAttachedRev, Bool.and_eq_true] at hA
      obtain ⟨hAhead, hAtail⟩ := hA
      rw [chainNamesFreeRev, Bool.and_eq_true] at hN
      obtain ⟨hNhead, hNtail⟩ := hN
      cases hc : nodeAt root ((i :: rest).reverse) with
      | none =>
        rw [hc] at hAhead
        simp at hAhead
      | some ch0 =>
        have hatt : ch0.info.attached = true := by
          rw [hc] at hAhead
          exact hAhead
        have hbind := nodeAt_rev_cons root i rest
        rw [hc] at hbind
        cases hpar : nodeAt root rest.reverse with
        | none =>
          rw [hpar] at hbind
          simp at hbind
        | some n0 =>
          rw [hpar, Option.some_bind] at hbind
          have hch : n0.children[i]? = some ch0 := hbind.symm
          rw [hpar, hc] at hNhead
          have hfree : ((((n0.children.eraseIdx i).filter (fun c => c.info.attached)).map
                Node.name ++ n0.hidden.map FEntry.name).contains ch0.info.name) = false := by
            have h2 : (!((((n0.children.eraseIdx i).filter
                (fun c => c.info.attached)).map Node.name
                ++ n0.hidden.map FEntry.name).contains ch0.info.name)) = true := hNhead
            cases hb : (((n0.children.eraseIdx i).filter (fun c => c.info.attached)).map
                Node.name ++ n0.hidden.map FEntry.name).contains ch0.info.name with
            | false => rfl
            | true => rw [hb] at h2; simp at h2
          rw [show detachTopRev root (i :: rest) (t2 + 1)
            = modifyAt (detachTopRev root rest t2) ((i :: rest).reverse)
                (fun x => x.setAttached false) from rfl]
          rw [attachParentsRev]
          have hstep : modifyAt
              (modifyAt (detachTopRev root rest t2) ((i :: rest).reverse)
                (fun x => x.setAttached false))
              rest.reverse (fun par => attachChildIn par i) = detachTopRev root rest t2 := by
            rw [show (i :: rest).reverse = rest.reverse ++ [i] from by simp]
            rw [modifyAt_append (detachTopRev root rest t2) rest.reverse [i]
              (fun x => x.setAttached false)]
            rw [modifyAt_modifyAt]
            apply modifyAt_id
            intro m hm
            obtain ⟨m2, hm2, hmc, hmh⟩ := detachTopRev_read_self root rest t2 n0 hpar
            rw [hm] at hm2
            have hmm : m = m2 := Option.some_inj.1 hm2
            rw [hmm]
            rw [modifyAt_single]
            rw [attachChildIn]
            have hcj : (modList m2.children i (fun x => x.setAttached false))[i]?
                = some (ch0.setAttached false) := by
              rw [getElem?_modList_eq, hmc, hch, Option.map_some']
            rw [show (Node.mk m2.info
                (modList m2.children i (fun x => x.setAttached false)) m2.hidden).children
              = modList m2.children i (fun x => x.setAttached false) from rfl]
            simp only [hcj]
            have h1 : (ch0.setAttached false).info.attached = false :=
              (setAttached_parts ch0 false).2.2.2
            have hcoll : (collNames (Node.mk m2.info
                (modList m2.children i (fun x => x.setAttached false))
                m2.hidden)).contains (ch0.setAttached false).info.name = false := by
              rw [collNames]
              rw [show (Node.mk m2.info
                  (modList m2.children i (fun x => x.setAttached false)) m2.hidden).children
                = modList m2.children i (fun x => x.setAttached false) from rfl]
              rw [show (Node.mk m2.info
                  (modList m2.children i (fun x => x.setAttached false)) m2.hidden).hidden
                = m2.hidden from rfl]
              rw [filter_att_modList_unatt _ _ _ (fun x => (setAttached_parts x false).2.2.2)]
              rw [hmc, hmh]
              rw [show (ch0.setAttached false).info.name = ch0.info.name from by
                rw [setAttached_info]]
              exact hfree
            simp only [h1, hcoll, Bool.not_false, Bool.and_self, if_true]
            show Node.mk m2.info
              (modList (modList m2.children i (fun x => x.setAttached false)) i
                (fun x => x.setAttached true)) m2.hidden = m2
            rw [modList_modList]
            rw [modList_id_of m2.children i _ ch0 (by rw [hmc]; exact hch)
              (by
                show (ch0.setAttached false).setAttached true = ch0
                rw [setAttached_setAttached]
                exact setAttached_id_of ch0 true hatt)]
            exact node_eta m2
          rw [hstep]
          exact ih t2 hAtail hNtail

theorem uncheckPhase (root : Node) (q : TPath) (j : Nat) (P D : Node)
    (hP : nodeAt root q = some P) (hD : P.children[j]? = some D)
    (hdir : D.info.isDir = true) (hpop : D.info.populated = true)
    (hat : D.info.attached = true) :
    userToggle root (q ++ [j]) CheckState.unchecked
      = pruneUpRev (modifyAt root (q ++ [j])
          (fun _ => Node.setAttached (recursiveDetach (storeAll CheckState.unchecked D))
            false)) q.reverse := by
  have hDp : nodeAt root (q ++ [j]) = some D := by
    rw [nodeAt_append, hP, Option.some_bind, nodeAt_single, hD]
  rw [userToggle_eq root (q ++ [j]) CheckState.unchecked D hDp]
  have hR1at : nodeAt (modifyAt root (q ++ [j]) (fun _ => storeAll CheckState.unchecked D))
      (q ++ [j]) = some (storeAll CheckState.unchecked D) := by
    rw [nodeAt_modifyAt_self, hDp, Option.map_some']
  have hAdir : (storeAll CheckState.unchecked D).info.isDir = true := by
    rw [storeAll_info]
    exact hdir
  have hApop : (storeAll CheckState.unchecked D).info.populated = true := by
    rw [storeAll_info]
    exact hpop
  have heff1 : checkStateOf (storeAll CheckState.unchecked D) = CheckState.unchecked :=
    checkStateOf_storeAll D CheckState.unchecked rfl
  rw [onTreeCheckStateChanged.eq_def]
  simp only [hR1at, heff1, hAdir, hApop,
    show (CheckState.unchecked == CheckState.checked) = false from rfl,
    show (CheckState.unchecked == CheckState.unchecked) = true from rfl,
    Bool.and_false, Bool.false_and, Bool.and_true, Bool.true_and,
    Bool.false_eq_true, if_false, if_true]
  rw [modifyAt_modifyAt]
  rw [modifyAt_congr root (q ++ [j]) _
    (fun _ => recursiveDetach (storeAll CheckState.unchecked D)) (fun x => rfl)]
  have hR2at : nodeAt (modifyAt root (q ++ [j])
        (fun _ => recursiveDetach (storeAll CheckState.unchecked D))) (q ++ [j])
      = some (recursiveDetach (storeAll CheckState.unchecked D)) := by
    rw [nodeAt_modifyAt_self, hDp, Option.map_some']
  have hBat : (recursiveDetach (storeAll CheckState.unchecked D)).info.attached = true := by
    rw [recursiveDetach_info, storeAll_info]
    exact hat
  rw [detachParents_concat]
  simp only [hR2at, hBat, if_true]
  rw [modifyAt_modifyAt]

theorem recheckPhase (root : Node) (q : TPath) (j t : Nat) (P D : Node)
    (hP : nodeAt root q = some P) (hD : P.children[j]? = some D)
    (hdir : D.info.isDir = true) (hpop : D.info.populated = true)
    (hgood : goodSub D = true)
    (hchain : chainAttached root q = true)
    (hnames : chainNamesFreeRev root (q ++ [j]).reverse = true) :
    userToggle
      (modifyAt (detachTopRev root q.reverse t) (q ++ [j])
        (fun _ => Node.setAttached (recursiveDetach (storeAll CheckState.unchecked D)) false))
      (q ++ [j]) CheckState.checked = root := by
  have hDp : nodeAt root (q ++ [j]) = some D := by
    rw [nodeAt_append, hP, Option.some_bind, nodeAt_single, hD]
  have hWD : nodeAt (detachTopRev root q.reverse t) (q ++ [j]) = some D := by
    have hrd := detachTopRev_read_below root q.reverse t j []
    rw [List.reverse_reverse] at hrd
    rw [hrd]
    exact hDp
  rw [show (q ++ [j]).reverse = j :: q.reverse from by simp] at hnames
  rw [chainNamesFreeRev, Bool.and_eq_true] at hnames
  obtain ⟨hhead, hNtail⟩ := hnames
  rw [List.reverse_reverse] at hhead
  rw [show (j :: q.reverse).reverse = q ++ [j] from by simp] at hhead
  rw [hP, hDp] at hhead
  have hsib : ((((P.children.eraseIdx j).filter (fun c => c.info.attached)).map Node.name
      ++ P.hidden.map FEntry.name).contains D.info.name) = false := by
    have h2 : (!((((P.children.eraseIdx j).filter (fun c => c.info.attached)).map Node.name
        ++ P.hidden.map FEntry.name).contains D.info.name)) = true := hhead
    cases hb : (((P.children.eraseIdx j).filter (fun c => c.info.attached)).map Node.name
        ++ P.hidden.map FEntry.name).contains D.info.name with
    | false => rfl
    | true => rw [hb] at h2; simp at h2
  have hUat : nodeAt (modifyAt (detachTopRev root q.reverse t) (q ++ [j])
        (fun _ => Node.setAttached (recursiveDetach (storeAll CheckState.unchecked D)) false))
      (q ++ [j])
      = some (Node.setAttached (recursiveDetach (storeAll CheckState.unchecked D)) false) := by
    rw [nodeAt_modifyAt_self, hWD, Option.map_some']
  rw [userToggle_eq _ (q ++ [j]) CheckState.checked _ hUat]
  rw [modifyAt_modifyAt]
  rw [modifyAt_congr (detachTopRev root q.reverse t) (q ++ [j]) _
    (fun _ => storeAll CheckState.checked
      (Node.setAttached (recursiveDetach (storeAll CheckState.unchecked D)) false))
    (fun x => rfl)]
  have hR4at : nodeAt (modifyAt (detachTopRev root q.reverse t) (q ++ [j])
        (fun _ => storeAll CheckState.checked
          (Node.setAttached (recursiveDetach (storeAll CheckState.unchecked D)) false)))
      (q ++ [j])
      = some (storeAll CheckState.checked
          (Node.setAttached (recursiveDetach (storeAll CheckState.unchecked D)) false)) := by
    rw [nodeAt_modifyAt_self, hWD, Option.map_some']
  have heff2 : checkStateOf (storeAll CheckState.checked
      (Node.setAttached (recursiveDetach (storeAll CheckState.unchecked D)) false))
      = CheckState.checked :=
    checkStateOf_storeAll _ CheckState.checked rfl
  have hCdir : (storeAll CheckState.checked
      (Node.setAttached (recursiveDetach (storeAll CheckState.unchecked D)) false)).info.isDir
      = true := by
    rw [storeAll_info, setAttached_info, recursiveDetach_info, storeAll_info]
    exact hdir
  have hCpop : (storeAll CheckState.checked
      (Node.setAttached (recursiveDetach (storeAll CheckState.unchecked D)) false)).info.populated
      = true := by
    rw [storeAll_info, setAttached_info, recursiveDetach_info, storeAll_info]
    exact hpop
  rw [onTreeCheckStateChanged.eq_def]
  simp only [hR4at, heff2, hCdir, hCpop,
    show (CheckState.checked == CheckState.checked) = true from rfl,
    show (CheckState.checked == CheckState.unchecked) = false from rfl,
    Bool.and_true, Bool.true_and, Bool.false_eq_true, if_true, if_false]
  rw [modifyAt_modifyAt]
  rw [modifyAt_congr (detachTopRev root q.reverse t) (q ++ [j]) _
    (fun _ => recursiveInsert (storeAll CheckState.checked
      (Node.setAttached (recursiveDetach (storeAll CheckState.unchecked D)) false)))
    (fun x => rfl)]
  rw [attachParents]
  rw [show (q ++ [j]).reverse = j :: q.reverse from by simp]
  rw [attachParentsRev]
  rw [List.reverse_reverse]
  have hD3at : (recursiveInsert (storeAll CheckState.checked
      (Node.setAttached (recursiveDetach (storeAll CheckState.unchecked D)) false))).info.attached
      = false := by
    rw [recursiveInsert_info, storeAll_info, setAttached_info]
  have hD3nm : (recursiveInsert (storeAll CheckState.checked
      (Node.setAttached (recursiveDetach (storeAll CheckState.unchecked D)) false))).info.name
      = D.info.name := by
    rw [recursiveInsert_info, storeAll_info, setAttached_info, recursiveDetach_info,
      storeAll_info]
  have hfirst : modifyAt
      (modifyAt (detachTopRev root q.reverse t) (q ++ [j])
        (fun _ => recursiveInsert (storeAll CheckState.checked
          (Node.setAttached (recursiveDetach (storeAll CheckState.unchecked D)) false))))
      q (fun par => attachChildIn par j) = detachTopRev root q.reverse t := by
    rw [modifyAt_append (detachTopRev root q.reverse t) q [j] _]
    rw [modifyAt_modifyAt]
    apply modifyAt_id
    intro m hm
    obtain ⟨m2, hm2, hmc, hmh⟩ := detachTopRev_read_self root q.reverse t P
      (by rw [List.reverse_reverse]; exact hP)
    rw [List.reverse_reverse] at hm2
    rw [hm] at hm2
    have hmm : m = m2 := Option.some_inj.1 hm2
    rw [hmm]
    rw [modifyAt_single]
    rw [attachChildIn]
    have hcj : (modList m2.children j
        (fun _ => recursiveInsert (storeAll CheckState.checked
          (Node.setAttached (recursiveDetach (storeAll CheckState.unchecked D)) false))))[j]?
        = some (recursiveInsert (storeAll CheckState.checked
          (Node.setAttached (recursiveDetach (storeAll CheckState.unchecked D)) false))) := by
      rw [getElem?_modList_eq, hmc, hD, Option.map_some']
    rw [show (Node.mk m2.info
        (modList m2.children j
          (fun _ => recursiveInsert (storeAll CheckState.checked
            (Node.setAttached (recursiveDetach (storeAll CheckState.unchecked D)) false))))
        m2.hidden).children
      = modList m2.children j
          (fun _ => recursiveInsert (storeAll CheckState.checked
            (Node.setAttached (recursiveDetach (storeAll CheckState.unchecked D)) false)))
      from rfl]
    simp only [hcj]
    have hcoll : (collNames (Node.mk m2.info
        (modList m2.children j
          (fun _ => recursiveInsert (storeAll CheckState.checked
            (Node.setAttached (recursiveDetach (storeAll CheckState.unchecked D)) false))))
        m2.hidden)).contains
        (recursiveInsert (storeAll CheckState.checked
          (Node.setAttached (recursiveDetach (storeAll CheckState.unchecked D))
            false))).info.name = false := by
      rw [collNames]
      rw [show (Node.mk m2.info
          (modList m2.children j
            (fun _ => recursiveInsert (storeAll CheckState.checked
              (Node.setAttached (recursiveDetach (storeAll CheckState.unchecked D)) false))))
          m2.hidden).children
        = modList m2.children j
            (fun _ => recursiveInsert (storeAll CheckState.checked
              (Node.setAttached (recursiveDetach (storeAll CheckState.unchecked D)) false)))
        from rfl]
      rw [show (Node.mk m2.info
          (modList m2.children j
            (fun _ => recursiveInsert (storeAll CheckState.checked
              (Node.setAttached (recursiveDetach (storeAll CheckState.unchecked D)) false))))
          m2.hidden).hidden = m2.hidden from rfl]
      rw [filter_att_modList_unatt _ _ _ (fun x => hD3at)]
      rw [hmc, hmh, hD3nm]
      exact hsib
    simp only [hD3at, hcoll, Bool.not_false, Bool.and_self, if_true]
    show Node.mk m2.info
      (modList (modList m2.children j
        (fun _ => recursiveInsert (storeAll CheckState.checked
          (Node.setAttached (recursiveDetach (storeAll CheckState.unchecked D)) false)))) j
        (fun x => x.setAttached true))
      m2.hidden = m2
    rw [modList_modList]
    rw [modList_congr m2.children j _
      (fun _ => Node.setAttached (recursiveInsert (storeAll CheckState.checked
        (Node.setAttached (recursiveDetach (storeAll CheckState.unchecked D)) false))) true)
      (fun c _ => rfl)]
    rw [roundTrip_node D hgood]
    rw [modList_id_of m2.children j _ D (by rw [hmc]; exact hD) rfl]
    exact node_eta m2
  rw [hfirst]
  rw [chainAttached] at hchain
  exact attachParentsRev_detachTop root q.reverse t hchain hNtail

def c4root : Node :=
  mkRootN [mkDirN "D" .mixed true true true
    [mkFileN "E" .unchecked false, mkFileN "F" .checked true] []]

/-- C4 is refuted: for the populated directory `D` with the child `E`
individually unchecked (detached) and `F` checked (attached),
unchecking `D` and then rechecking it does not restore the original
attached set {F}: the recheck cascade stores Checked on every
descendant and `recursiveInsert` re-attaches all of them, so `E` is
attached afterwards as well. -/
theorem C4_counterexample :
    (nodeAt c4root [0]).map collNames = some ["F"]
    ∧ (nodeAt (userToggle (userToggle c4root [0] .unchecked) [0] .checked) [0]).map collNames
        = some ["E", "F"] := by
  decide

/-- C4 amended: the uncheck/recheck round trip on a populated directory
restores the tree exactly — hence in particular the original attached
descendant set — provided every node of the directory's materialized
subtree was itself checked and attached (with consistent
population/name data, `goodSub`), every ancestor on the chain was
attached, and no node on the chain shares its name with another entry
of its parent's collection (the unique collection names invariant of
`IFileTree`, restricted to the chain).  Ancestor pruning needs no side
condition: when detaching the directory empties an ancestor's
collection, `detachParents` prunes that ancestor, and the
`attachParents` walk of the recheck re-inserts the pruned chain
exactly.  Without the all-descendants-checked hypothesis the claim
fails, as unchecking the directory propagates Unchecked onto every
descendant and the recheck re-attaches all of them. -/
theorem C4_roundtrip_amended (root : Node) (q : TPath) (j : Nat) (P D : Node)
    (hP : nodeAt root q = some P) (hD : P.children[j]? = some D)
    (hdir : D.info.isDir = true) (hpop : D.info.populated = true)
    (hgood : goodSub D = true)
    (hchain : chainAttached root q = true)
    (hnames : chainNamesFreeRev root (q ++ [j]).reverse = true) :
    userToggle (userToggle root (q ++ [j]) .unchecked) (q ++ [j]) .checked = root := by
  rw [uncheckPhase root q j P D hP hD hdir hpop (goodSub_spec D hgood).2.2.1]
  obtain ⟨t, hU⟩ := pruneUpRev_detachTop root q.reverse j
    (fun _ => Node.setAttached (recursiveDetach (storeAll CheckState.unchecked D)) false)
    (fun x => (setAttached_parts _ false).2.2.2)
  rw [List.reverse_reverse] at hU
  rw [hU]
  exact recheckPhase root q j t P D hP hD hdir hpop hgood hchain hnames

def c4wD : Node :=
  mkDirN "D" .checked true true true [mkFileN "x" .checked true] []

/-- The directory `D` is the sole entry of its parent `A`: unchecking
`D` empties `A`, so the pruning loop detaches `A` as well, and the
recheck re-attaches the whole chain. -/
def c4wP : Node :=
  mkDirN "A" .checked true true true [c4wD] []

def c4w : Node := mkRootN [c4wP]

theorem C4_roundtrip_amended_witness :
    userToggle (userToggle c4w ([0] ++ [0]) .unchecked) ([0] ++ [0]) .checked = c4w :=
  C4_roundtrip_amended c4w [0] 0 c4wP c4wD (by decide) (by decide) (by decide) (by decide)
    (by decide) (by decide) (by decide)
